import Mathlib

/-!
Verification of the LPXImage log-polar scan pipeline and streaming server.

This development shallowly embeds the C++ sources (lpx_image.cpp,
mt_lpx_image.cpp, optimized_scan.cpp, lpx_file_server.cpp,
lpx_webcam_server.cpp, lpx_image.h) in Lean 4.  C++ `int` values are
modelled as `ℤ` (or `ℕ` where the source value is provably non-negative,
e.g. colour bytes and pixel counts), C++ `float` values as `ℚ` with the
source's casts rendered as truncation toward zero (`static_cast<int>`)
or floor (`std::floor`).  `std::vector` is modelled as `List`, with
out-of-range reads rendered by `List.getD` and writes by `List.set`.
-/

namespace LPX

/-- Truncation of a rational toward zero, the semantics of C++
`static_cast<int>(float)`. -/
def ratTrunc (q : ℚ) : ℤ := if 0 ≤ q then ⌊q⌋ else ⌈q⌉

/-- Packed BGR cell value, from `LPXImage::packColor` (lpx_image.cpp):
`(b & 0xFF) | ((g & 0xFF) << 8) | ((r & 0xFF) << 16)`.  On natural
numbers the byte mask is `% 256` and, since the three byte fields are
disjoint, the bitwise ors are additions. -/
def packColor (r g b : ℕ) : ℕ := (b % 256) + (g % 256) * 256 + (r % 256) * 65536

/-- Semantics of `std::vector::resize(n)` after reading at most the
available data: the first `n` entries of the stream, zero-filled when the
stream is shorter (`resize` value-initialises; a short `file.read` leaves
the zero fill in place and the code never checks the stream state). -/
def takePadZ (n : ℕ) (l : List ℤ) : List ℤ :=
  l.take n ++ List.replicate (n - l.length) 0

/-- The list of integers `lo, lo+1, …, hi-1`, the index range of a C++
`for (int k = lo; k < hi; k++)` loop. -/
def intRange (lo hi : ℤ) : List ℤ :=
  (List.range (hi - lo).toNat).map (fun t => lo + (t : ℤ))

/-- A BGR colour sample (each channel a byte value). -/
structure BGR where
  b : ℕ
  g : ℕ
  r : ℕ
  deriving DecidableEq, Repr

/-- A source raster frame: dimensions, channel count and pixel access.
`pix3 y x` is the 3-channel BGR sample at row `y`, column `x`;
`pix1 y x` the single grayscale intensity. -/
structure Image where
  cols : ℤ
  rows : ℤ
  channels : ℕ
  pix3 : ℤ → ℤ → BGR
  pix1 : ℤ → ℤ → ℕ

/-- Pixel sampling as in the scan loops of mt_lpx_image.cpp: a 3-channel
image is sampled directly, a grayscale image replicates the intensity
over all channels, any other channel count is skipped (`continue`). -/
def sampleColor (img : Image) (y x : ℤ) : Option BGR :=
  if img.channels = 3 then some (img.pix3 y x)
  else if img.channels = 1 then
    some ⟨img.pix1 y x, img.pix1 y x, img.pix1 y x⟩
  else none

/-- The scan tables object (`class LPXTables`, lpx_image.h).  The
`length` and `innerLength` header fields always equal the array sizes
after `load` (the vectors are resized to exactly those lengths), so they
are derived here. -/
structure LPXTables where
  initialized : Bool
  mapWidth : ℤ
  spiralPer : ℚ
  outerPixelIndex : List ℤ
  outerPixelCellIdx : List ℤ
  innerCells : List (ℤ × ℤ)
  lastFoveaIndex : ℤ
  lastCellIndex : ℤ
  deriving DecidableEq, Repr

/-- `LPXTables::length` (size of the outer pixel arrays). -/
def LPXTables.length (sct : LPXTables) : ℤ := sct.outerPixelIndex.length

/-- `LPXTables::innerLength` (size of the fovea coordinate array). -/
def LPXTables.innerLength (sct : LPXTables) : ℤ := sct.innerCells.length

/-! ### C10 — total cell accessor `LPXImage::getCellValue` -/

/-- `LPXImage::getCellValue(int index)` (lpx_image.h, lines 112-124):
returns `cellArray[index]` when `index >= 0 && index < cellArray.size()`
and `0` otherwise. -/
def getCellValue (cellArray : List ℕ) (index : ℤ) : ℕ :=
  if 0 ≤ index ∧ index < (cellArray.length : ℤ) then
    cellArray.getD index.toNat 0
  else 0

/-! ### C8 — wire framing size sanity (`LPXStreamProtocol::receiveLPXImage`) -/

/-- The image reconstructed by the wire receiver: header fields plus the
cell payload. -/
structure WireImage where
  length : ℤ
  nMaxCells : ℤ
  spiralPer : ℚ
  width : ℤ
  height : ℤ
  x_ofs : ℚ
  y_ofs : ℚ
  cellArray : List ℕ
  deriving DecidableEq, Repr

/-- `LPXStreamProtocol::receiveLPXImage` (lpx_webcam_server.cpp, lines
68-119), with the socket modelled as the list of 32-bit words that will
be received in order.  The first word is `totalSize`; a non-positive or
over-10-MiB value is rejected before anything further is read.  A stream
too short for the header or the declared cell payload makes `recv` fail,
returning `nullptr`. -/
def receiveLPXImage (words : List ℤ) : Option WireImage :=
  match words with
  | [] => none
  | totalSize :: rest =>
    if totalSize ≤ 0 ∨ 10 * 1024 * 1024 < totalSize then none
    else if rest.length < 8 then none
    else
      let length := rest.getD 0 0
      let body := rest.drop 8
      if body.length < length.toNat then none
      else
        some { length := length
               nMaxCells := rest.getD 1 0
               spiralPer := (rest.getD 2 0 : ℚ) + 1/2
               width := rest.getD 3 0
               height := rest.getD 4 0
               x_ofs := (rest.getD 5 0 : ℚ) * (1/100000)
               y_ofs := (rest.getD 6 0 : ℚ) * (1/100000)
               cellArray := (body.take length.toNat).map Int.toNat }

/-! ### C7 — pop-oldest bounded queues -/

/-- The `while (queue.size() >= 3) queue.pop();` loop run before a push
(lpx_webcam_server.cpp captureThread, lpx_file_server.cpp videoThread).
The queue front is the oldest element. -/
def popExcess {α : Type} : List α → List α
  | [] => []
  | x :: t => if 3 ≤ (x :: t).length then popExcess t else x :: t

/-- A push onto the bounded queue: drop oldest entries until fewer than
three remain, then append the new item at the back. -/
def pushBounded {α : Type} (q : List α) (x : α) : List α :=
  popExcess q ++ [x]

/-! ### C6 — fixation clamp (`FileLPXServer::handleMovementCommand`) -/

/-- The fixation offset owned by the file server. -/
structure FixState where
  cx : ℚ
  cy : ℚ
  deriving DecidableEq, Repr

/-- `std::max(lo, std::min(hi, v))`. -/
def clampQ (lo hi v : ℚ) : ℚ := max lo (min hi v)

/-- `FileLPXServer::handleMovementCommand` (lpx_file_server.cpp, lines
265-301): add `delta × step` to each offset, then clamp to
`±0.2 × mapWidth` when the scan tables are loaded with positive
`mapWidth`, else to `±0.4 ×` the output dimensions. -/
def handleMovementCommand (tablesLoaded : Bool) (mapWidth outW outH : ℤ)
    (st : FixState) (dx dy step : ℚ) : FixState :=
  let cx := st.cx + dx * step
  let cy := st.cy + dy * step
  if tablesLoaded = true ∧ 0 < mapWidth then
    let mx : ℚ := (mapWidth : ℚ) * (1/5)
    let my : ℚ := (mapWidth : ℚ) * (1/5)
    ⟨clampQ (-mx) mx cx, clampQ (-my) my cy⟩
  else
    let mx : ℚ := (outW : ℚ) * (2/5)
    let my : ℚ := (outH : ℚ) * (2/5)
    ⟨clampQ (-mx) mx cx, clampQ (-my) my cy⟩

/-- Folding a sequence of movement commands through the handler,
starting from a given fixation state. -/
def runMovements (tablesLoaded : Bool) (mapWidth outW outH : ℤ)
    (st : FixState) (cmds : List (ℚ × ℚ × ℚ)) : FixState :=
  cmds.foldl (fun s c => handleMovementCommand tablesLoaded mapWidth outW outH s c.1 c.2.1 c.2.2) st

/-! ### C4 — scan-tables load (`LPXTables::load`) -/

/-- `LPXTables::load` on a successfully opened file (lpx_image.cpp lines
37-81, identically mt_lpx_image.cpp lines 61-104), the file modelled as
the sequence of little-endian 32-bit words read in order.  The header is
`totalLength, mapWidth, spiralPerInt, length, innerLength,
lastFoveaIndex, lastCellIndex`; `spiralPer` is reconstituted as
`spiralPerInt + 0.5` and, when that lies outside `[0.1, 1000]`, replaced
by the default `63.5`; the three arrays are resized per the header and
read; `initialized` is set to `true` and the function returns `true`
unconditionally. -/
def LPXTables.load (file : List ℤ) : LPXTables :=
  let spiralPerInt := file.getD 2 0
  let loadedSpiralPer : ℚ := (spiralPerInt : ℚ) + 1/2
  let len := (file.getD 3 0).toNat
  let innerLen := (file.getD 4 0).toNat
  let rest := file.drop 7
  { initialized := true
    mapWidth := file.getD 1 0
    spiralPer := if loadedSpiralPer < 1/10 ∨ 1000 < loadedSpiralPer then 127/2 else loadedSpiralPer
    outerPixelIndex := takePadZ len rest
    outerPixelCellIdx := takePadZ len (rest.drop len)
    innerCells := (intRange 0 innerLen).map (fun t =>
        ((rest.drop (2 * len)).getD (2 * t).toNat 0,
         (rest.drop (2 * len)).getD (2 * t + 1).toNat 0))
    lastFoveaIndex := file.getD 5 0
    lastCellIndex := file.getD 6 0 }

/-! ### C5 — LP image save/load round trip -/

/-- The persistent fields of `class LPXImage` (lpx_image.h). -/
structure LPXImageState where
  length : ℤ
  nMaxCells : ℤ
  spiralPer : ℚ
  width : ℤ
  height : ℤ
  x_ofs : ℚ
  y_ofs : ℚ
  cellArray : List ℕ
  deriving DecidableEq, Repr

/-- `LPXImage::saveToFile` (lpx_image.cpp lines 461-497), the file
modelled as the written 32-bit words: the eight-word header
`totalLength = 8 + length, length, nMaxCells, int(spiralPer), width,
height, int(x_ofs·1e5), int(y_ofs·1e5)` followed by every entry of
`cellArray`. -/
def saveToFile (img : LPXImageState) : List ℤ :=
  [8 + img.length, img.length, img.nMaxCells, ratTrunc img.spiralPer,
   img.width, img.height,
   ratTrunc (img.x_ofs * 100000), ratTrunc (img.y_ofs * 100000)]
  ++ img.cellArray.map (fun c : ℕ => (c : ℤ))

/-- `LPXImage::loadFromFile` (lpx_image.cpp lines 499-575) on a
successfully opened file: read the header, reconstitute
`spiralPer = int + 0.5` (resetting to `63.5` when below `0.1`),
recover the offsets by `× 1e-5`, resize `cellArray` to `length` and read
the cell payload (a short file leaves the zero fill of `resize`). -/
def loadFromFile (file : List ℤ) : LPXImageState :=
  let spiralPer0 : ℚ := (file.getD 3 0 : ℚ) + 1/2
  let len := (file.getD 1 0).toNat
  { length := file.getD 1 0
    nMaxCells := file.getD 2 0
    spiralPer := if spiralPer0 < 1/10 then 127/2 else spiralPer0
    width := file.getD 4 0
    height := file.getD 5 0
    x_ofs := (file.getD 6 0 : ℚ) * (1/100000)
    y_ofs := (file.getD 7 0 : ℚ) * (1/100000)
    cellArray := (takePadZ len (file.drop 8)).map Int.toNat }

/-! ### C9 — frame-synchronised movement with coalescing (`LPXDebugClient`) -/

/-- A movement command `(deltaX, deltaY, stepSize)`. -/
structure Cmd where
  dx : ℚ
  dy : ℚ
  step : ℚ
  deriving DecidableEq, Repr

/-- The debug viewer's command state: the frame-sync flag
`canSendCommand`, the single pending command slot, the key-throttle
timestamp, the log of commands written to the socket, and the number of
commands written since the last received frame. -/
structure ViewerState where
  canSend : Bool
  pending : Option Cmd
  lastKeyTime : ℤ
  sent : List Cmd
  sentSinceFrame : ℕ
  deriving DecidableEq, Repr

/-- Events observed by the viewer: a W/A/S/D key press with its unit
delta at time `t` (milliseconds), or the receiver handing off a rendered
frame. -/
inductive VEvent where
  | key (dx dy : ℚ) (t : ℤ)
  | frame
  deriving DecidableEq, Repr

/-- `KEY_THROTTLE_MS` (lpx_version.h). -/
def KEY_THROTTLE : ℤ := 16

/-- One step of the viewer's command logic.  A key press
(`LPXDebugClient::processEvents`, lpx_webcam_server.cpp lines 689-734):
if at least `KEY_THROTTLE_MS` elapsed since the last accepted press the
command overwrites the pending slot and, when `canSendCommand` holds, is
sent at once (clearing the slot and the flag); a press inside the
throttle window is discarded.  A received frame
(`LPXDebugClient::receiverThread`, lines 911-929): set `canSendCommand`,
then send the pending command if present, clearing slot and flag. -/
def stepEvent (st : ViewerState) (e : VEvent) : ViewerState :=
  match e with
  | .key dx dy t =>
    if dx = 0 ∧ dy = 0 then st
    else if KEY_THROTTLE ≤ t - st.lastKeyTime then
      let st1 := { st with pending := some ⟨dx, dy, 10⟩, lastKeyTime := t }
      if st1.canSend then
        { st1 with pending := none, canSend := false,
                   sent := st1.sent ++ [⟨dx, dy, 10⟩],
                   sentSinceFrame := st1.sentSinceFrame + 1 }
      else st1
    else st
  | .frame =>
    let st1 := { st with canSend := true, sentSinceFrame := 0 }
    match st1.pending with
    | some c =>
      { st1 with pending := none, canSend := false,
                 sent := st1.sent ++ [c], sentSinceFrame := 1 }
    | none => st1

/-- The viewer's initial command state (`lpx_webcam_server.h`:
`canSendCommand{true}`, no pending command; the constructor initialises
`lastKeyTime` to `KEY_THROTTLE_MS + 1` in the past). -/
def initViewer : ViewerState :=
  { canSend := true, pending := none, lastKeyTime := -(KEY_THROTTLE + 1),
    sent := [], sentSinceFrame := 0 }

/-- Run the viewer over a list of events from the initial state. -/
def runViewer (evs : List VEvent) : ViewerState :=
  evs.foldl stepEvent initViewer

/-! ### The scanner (`LPXImage::scanFromImage`, mt_lpx_image.cpp lines 377-565) -/

/-- One iteration of the binary-search loop over `outerPixelIndex`
(mt_lpx_image.cpp lines 499-515, identically the `findCellIndex` lambda
of `internal::processImageRegion`, lines 204-222).  `fuel` bounds the
number of iterations; the search interval shrinks at every step, so any
`fuel` larger than the interval length is enough (`bsearch_spec`
below). -/
def bsearchAux (a c : List ℤ) (lastFovea p : ℤ) : ℕ → ℤ → ℤ → ℤ
  | 0, _, high => if 0 ≤ high then c.getD high.toNat 0 else lastFovea
  | fuel + 1, low, high =>
    if low ≤ high then
      let mid := (low + high).tdiv 2
      let v := a.getD mid.toNat 0
      if v < p then bsearchAux a c lastFovea p fuel (mid + 1) high
      else if p < v then bsearchAux a c lastFovea p fuel low (mid - 1)
      else c.getD mid.toNat 0
    else if 0 ≤ high then c.getD high.toNat 0 else lastFovea

/-- The scanner's ordered-predecessor lookup: binary search for scan-map
pixel `p` in `outerPixelIndex`; on an exact match the paired
`outerPixelCellIdx` entry, otherwise the entry at the highest index
whose pixel index is below `p`, and `lastFoveaIndex` when there is
none. -/
def findCell (sct : LPXTables) (p : ℤ) : ℤ :=
  bsearchAux sct.outerPixelIndex sct.outerPixelCellIdx sct.lastFoveaIndex p
    (sct.outerPixelIndex.length + 1) 0 (sct.length - 1)

/-- A scan bounding box (`struct Rect`, lpx_image.h). -/
structure Rect where
  xMin : ℤ
  xMax : ℤ
  yMin : ℤ
  yMax : ℤ
  deriving DecidableEq, Repr

/-- `internal::getScannedBox` (mt_lpx_image.cpp lines 149-178).  The
spiral radius is `getSpiralRadius(length, spiralPer)`, a transcendental
float expression (`r0 · (sv_A/spiralPer + 1)^(length/spiralPer)`); it
enters the box only through the rounded integer
`spRad = floor(radius + 0.5)`, taken here as a parameter. -/
def getScannedBox (cx cy : ℚ) (width height : ℤ) (spRad : ℤ) : Rect :=
  let j_ofs := ⌊cx + 1/2⌋
  let k_ofs := ⌊cy + 1/2⌋
  let imgWid_2 := ⌊(1/2 : ℚ) * (width : ℚ) + 1/2⌋
  let imgHt_2 := ⌊(1/2 : ℚ) * (height : ℚ) + 1/2⌋
  let xMin := imgWid_2 - spRad - j_ofs
  let xMax := width - (imgWid_2 - spRad) - j_ofs
  let yMin := imgHt_2 - spRad - k_ofs
  let yMax := height - (imgHt_2 - spRad) - k_ofs
  { xMin := if xMin < 0 then 0 else xMin
    xMax := if width < xMax then width else xMax
    yMin := if yMin < 0 then 0 else yMin
    yMax := if height < yMax then height else yMax }

/-- The target cell index of fovea iteration `i` (mt_lpx_image.cpp lines
447-454): the inner index itself for `i ≤ lastFoveaIndex` within the
cell buffer, else the `outerPixelCellIdx` entry at `i`. -/
def foveaTarget (sct : LPXTables) (cellsLen : ℕ) (i : ℕ) : ℤ :=
  if (i : ℤ) ≤ sct.lastFoveaIndex ∧ (i : ℤ) < (cellsLen : ℤ) then (i : ℤ)
  else sct.outerPixelCellIdx.getD i 0

/-- The image column sampled by fovea iteration `i`:
`x = int(x_center + (innerCells[i].x − mapWidth/2))`. -/
def foveaX (sct : LPXTables) (cx : ℚ) (i : ℕ) : ℤ :=
  ratTrunc (cx + (((sct.innerCells.getD i (0, 0)).1 - sct.mapWidth.tdiv 2 : ℤ) : ℚ))

/-- The image row sampled by fovea iteration `i`:
`y = int(y_center + (innerCells[i].y − mapWidth/2))`. -/
def foveaY (sct : LPXTables) (cy : ℚ) (i : ℕ) : ℤ :=
  ratTrunc (cy + (((sct.innerCells.getD i (0, 0)).2 - sct.mapWidth.tdiv 2 : ℤ) : ℚ))

/-- One iteration of the fovea pass (mt_lpx_image.cpp lines 418-465):
translate `innerCells[i]` from scan-map to image coordinates by the
fixation centre, and if the pixel is in frame write its packed BGR
directly into the target cell. -/
def foveaStep (sct : LPXTables) (img : Image) (cx cy : ℚ)
    (cells : List ℕ) (i : ℕ) : List ℕ :=
  let x := foveaX sct cx i
  let y := foveaY sct cy i
  if 0 ≤ x ∧ x < img.cols ∧ 0 ≤ y ∧ y < img.rows then
    match sampleColor img y x with
    | none => cells
    | some color =>
      let k := foveaTarget sct cells.length i
      if 0 ≤ k ∧ k < (cells.length : ℤ) then
        cells.set k.toNat (packColor color.r color.g color.b)
      else cells
  else cells

/-- The fovea pass: iterate `foveaStep` over `i < innerLength`. -/
def foveaPass (sct : LPXTables) (img : Image) (cx cy : ℚ)
    (cells0 : List ℕ) : List ℕ :=
  (List.range sct.innerCells.length).foldl (foveaStep sct img cx cy) cells0

/-- The per-cell colour accumulators of the peripheral pass. -/
structure Accums where
  r : List ℕ
  g : List ℕ
  b : List ℕ
  cnt : List ℕ
  deriving DecidableEq, Repr

/-- One pixel of the peripheral pass (mt_lpx_image.cpp lines 487-543):
map `(j_s, k_s)` to a scan-map index, reject out-of-map indices, look up
the cell by binary search, skip fovea and out-of-range cells, and
accumulate the pixel's BGR into that cell. -/
def periphPixel (sct : LPXTables) (img : Image) (i_m_ofs_0 : ℤ)
    (acc : Accums) (k_s j_s : ℤ) : Accums :=
  let i_m := i_m_ofs_0 + sct.mapWidth * k_s + j_s
  if i_m < 0 ∨ sct.mapWidth * sct.mapWidth ≤ i_m then acc
  else
    let iCell := findCell sct i_m
    if iCell ≤ sct.lastFoveaIndex ∨ (acc.r.length : ℤ) ≤ iCell then acc
    else if 0 ≤ j_s ∧ j_s < img.cols ∧ 0 ≤ k_s ∧ k_s < img.rows then
      match sampleColor img k_s j_s with
      | none => acc
      | some color =>
        { r := acc.r.set iCell.toNat (acc.r.getD iCell.toNat 0 + color.r)
          g := acc.g.set iCell.toNat (acc.g.getD iCell.toNat 0 + color.g)
          b := acc.b.set iCell.toNat (acc.b.getD iCell.toNat 0 + color.b)
          cnt := acc.cnt.set iCell.toNat (acc.cnt.getD iCell.toNat 0 + 1) }
    else acc

/-- The peripheral pass: rows `box.yMin ≤ k_s < box.yMax`, columns
`box.xMin ≤ j_s < box.xMax`, with the scan-map index offset
`i_m_ofs_0 = (mapWidth/2 − int(cx)) + mapWidth · (mapWidth/2 − int(cy))`
(mt_lpx_image.cpp lines 470-483). -/
def periphPass (sct : LPXTables) (img : Image) (cx cy : ℚ) (box : Rect)
    (acc0 : Accums) : Accums :=
  let center := sct.mapWidth.tdiv 2
  let i_m_ofs_0 := (center - ratTrunc cx) + sct.mapWidth * (center - ratTrunc cy)
  (intRange box.yMin box.yMax).foldl
    (fun acc k_s =>
      (intRange box.xMin box.xMax).foldl
        (fun a j_s => periphPixel sct img i_m_ofs_0 a k_s j_s) acc)
    acc0

/-- The finalisation pass (mt_lpx_image.cpp lines 546-561): each cell
with a positive count becomes the packed truncating average of its
accumulators; an untouched cell keeps the fovea pass's value when its
index is at most `lastFoveaIndex` and is cleared to black otherwise.
Each slot is written at most once from the pre-state at the same index,
so the loop is rendered pointwise. -/
def finalizeCells (lastFovea : ℤ) (acc : Accums) (cells : List ℕ) : List ℕ :=
  (List.range cells.length).map (fun i =>
    let c := acc.cnt.getD i 0
    if 0 < c then
      packColor (acc.r.getD i 0 / c) (acc.g.getD i 0 / c) (acc.b.getD i 0 / c)
    else if (i : ℤ) ≤ lastFovea then cells.getD i 0
    else 0)

/-- The result of a successful scan: the image's cell buffer,
accumulators, fixation offset and length after `scanFromImage`. -/
structure ScanResult where
  cells : List ℕ
  accR : List ℕ
  accG : List ℕ
  accB : List ℕ
  cnt : List ℕ
  x_ofs : ℚ
  y_ofs : ℚ
  length : ℤ
  deriving DecidableEq, Repr

/-- `LPXImage::scanFromImage` (mt_lpx_image.cpp lines 377-565) on an
image whose cell buffer currently holds `cells0`.  Returns `none` when
the validation at the top fails (uninitialised or empty tables, empty
frame, or `lastFoveaIndex` not strictly between 0 and `lastCellIndex`);
otherwise runs the fovea pass, the peripheral pass over the scan
bounding box, and the finalisation.  `nMaxCells` equals the cell-buffer
size (both are `lastCellIndex + 1` at construction); `spRad` is the
rounded spiral radius (see `getScannedBox`). -/
def scanFromImage (sct : LPXTables) (img : Image) (cx cy : ℚ)
    (cells0 : List ℕ) (spRad : ℤ) : Option ScanResult :=
  if sct.initialized = false ∨ img.cols = 0 ∨ img.rows = 0 then none
  else if sct.outerPixelIndex = [] ∨ sct.outerPixelCellIdx = [] ∨ sct.innerCells = [] then none
  else if sct.lastFoveaIndex ≤ 0 ∨ sct.lastCellIndex ≤ sct.lastFoveaIndex then none
  else
    let nMax := cells0.length
    let cellsB := foveaPass sct img cx cy cells0
    let acc0 : Accums :=
      ⟨List.replicate nMax 0, List.replicate nMax 0,
       List.replicate nMax 0, List.replicate nMax 0⟩
    let box := getScannedBox cx cy img.cols img.rows spRad
    let acc := periphPass sct img cx cy box acc0
    some { cells := finalizeCells sct.lastFoveaIndex acc cellsB
           accR := acc.r, accG := acc.g, accB := acc.b, cnt := acc.cnt
           x_ofs := cx, y_ofs := cy, length := nMax }

/-- The finalisation of `optimizedMultithreadedScan`
(optimized_scan.cpp lines 326-344, with the `LPX_RAINBOW_MODE` debug
visualisation toggle off): identical averaging, but a zero-count cell
with index `≤ lastFoveaIndex` keeps whatever the buffer holds.  The
optimized fovea write packs `color[0] | color[1]<<8 | color[2]<<16`,
the same BGR packing. -/
def optFinalize (lastFovea : ℤ) (acc : Accums) (cells : List ℕ) : List ℕ :=
  (List.range cells.length).map (fun i =>
    let c := acc.cnt.getD i 0
    if 0 < c then
      packColor (acc.r.getD i 0 / c) (acc.g.getD i 0 / c) (acc.b.getD i 0 / c)
    else if lastFovea < (i : ℤ) then 0
    else cells.getD i 0)

/-! ### The scan cache (`ScanCache::initialize`, optimized_scan.cpp lines 29-61) -/

/-- One pair write of step (i) of `ScanCache::initialize`: the pair
`outerPixelIndex[i] → outerPixelCellIdx[i]` is written when the pixel
index is within the cache. -/
def lutWriteStep (sct : LPXTables) (mapSize : ℕ) (lut : List ℤ) (i : ℕ) : List ℤ :=
  if 0 ≤ sct.outerPixelIndex.getD i 0 ∧ sct.outerPixelIndex.getD i 0 < (mapSize : ℤ) then
    lut.set (sct.outerPixelIndex.getD i 0).toNat (sct.outerPixelCellIdx.getD i 0)
  else lut

/-- Step (i) of `ScanCache::initialize`: start from a `mapSize`-entry
table of `-1` sentinels and write every in-range
`outerPixelIndex[i] → outerPixelCellIdx[i]` pair. -/
def lutWritePairs (sct : LPXTables) (mapSize : ℕ) : List ℤ :=
  (List.range sct.outerPixelIndex.length).foldl (lutWriteStep sct mapSize)
    (List.replicate mapSize (-1))

/-- One step of step (ii) of `ScanCache::initialize`: a `-1` gap is
filled with the running `lastValidCell`, otherwise the running value is
updated from the table. -/
def lutFillStep (state : ℤ × List ℤ) (i : ℕ) : ℤ × List ℤ :=
  if state.2.getD i 0 = -1 then (state.1, state.2.set i state.1)
  else (state.2.getD i 0, state.2)

/-- `ScanCache::initialize`: write all pairs, then forward-fill the gaps
left to right with the most recent valid cell index, seeded with
`lastFoveaIndex`. -/
def buildLUT (sct : LPXTables) : List ℤ :=
  let mapSize := (sct.mapWidth * sct.mapWidth).toNat
  ((List.range mapSize).foldl lutFillStep
    (sct.lastFoveaIndex, lutWritePairs sct mapSize)).2

/-- Specification helper for the refinement proof: the largest index
`i < n` with `a[i] ≤ p`, by downward search. -/
def predIdxAux (a : List ℤ) (p : ℤ) : ℕ → Option ℕ
  | 0 => none
  | n + 1 => if a.getD n 0 ≤ p then some n else predIdxAux a p n

/-- Specification helper: the largest index `i < n` with `a[i] = q`, by
downward search. -/
def entryIdxAux (a : List ℤ) (q : ℤ) : ℕ → Option ℕ
  | 0 => none
  | n + 1 => if a.getD n 0 = q then some n else entryIdxAux a q n

/-- Specification helper: the ordered-predecessor cell — the
`outerPixelCellIdx` entry at the largest index whose `outerPixelIndex`
is at most `p`, and `lastFoveaIndex` when there is none. -/
def predCellSpec (sct : LPXTables) (p : ℤ) : ℤ :=
  match predIdxAux sct.outerPixelIndex p sct.outerPixelIndex.length with
  | some i => sct.outerPixelCellIdx.getD i 0
  | none => sct.lastFoveaIndex

/-- Specification helper for the forward fill: the most recent non-gap
value of `lut0` at an index at most `p`, seeded with `seed`. -/
def prevValid (lut0 : List ℤ) (seed : ℤ) : ℕ → ℤ
  | 0 => if lut0.getD 0 0 = -1 then seed else lut0.getD 0 0
  | p + 1 => if lut0.getD (p + 1) 0 = -1 then prevValid lut0 seed p else lut0.getD (p + 1) 0

/-- Specification helper: the running `lastValidCell` before processing
index `n` of the forward fill. -/
def fillSeedVal (lut0 : List ℤ) (seed : ℤ) : ℕ → ℤ
  | 0 => seed
  | m + 1 => prevValid lut0 seed m

/-! ### Integer-centre evaluation layer

The scan is defined over rational centres, matching the float centre of
the C++ code.  For concrete evaluation (rational arithmetic does not
reduce in the kernel) the same pipeline is restated for integer centres;
`scanFromImage_intCast` below proves the two agree whenever the centre
is integral, so witnesses may be computed on this layer. -/

/-- `foveaStep` at an integral centre `(jx, ky)`. -/
def foveaStepZ (sct : LPXTables) (img : Image) (jx ky : ℤ)
    (cells : List ℕ) (i : ℕ) : List ℕ :=
  let center := sct.mapWidth.tdiv 2
  let adjX := (sct.innerCells.getD i (0, 0)).1 - center
  let adjY := (sct.innerCells.getD i (0, 0)).2 - center
  let x := jx + adjX
  let y := ky + adjY
  if 0 ≤ x ∧ x < img.cols ∧ 0 ≤ y ∧ y < img.rows then
    match sampleColor img y x with
    | none => cells
    | some color =>
      let k := foveaTarget sct cells.length i
      if 0 ≤ k ∧ k < (cells.length : ℤ) then
        cells.set k.toNat (packColor color.r color.g color.b)
      else cells
  else cells

/-- `foveaPass` at an integral centre. -/
def foveaPassZ (sct : LPXTables) (img : Image) (jx ky : ℤ)
    (cells0 : List ℕ) : List ℕ :=
  (List.range sct.innerCells.length).foldl (foveaStepZ sct img jx ky) cells0

/-- `getScannedBox` at an integral centre. -/
def getScannedBoxZ (jx ky : ℤ) (width height : ℤ) (spRad : ℤ) : Rect :=
  let imgWid_2 := (width + 1) / 2
  let imgHt_2 := (height + 1) / 2
  let xMin := imgWid_2 - spRad - jx
  let xMax := width - (imgWid_2 - spRad) - jx
  let yMin := imgHt_2 - spRad - ky
  let yMax := height - (imgHt_2 - spRad) - ky
  { xMin := if xMin < 0 then 0 else xMin
    xMax := if width < xMax then width else xMax
    yMin := if yMin < 0 then 0 else yMin
    yMax := if height < yMax then height else yMax }

/-- `periphPass` at an integral centre. -/
def periphPassZ (sct : LPXTables) (img : Image) (jx ky : ℤ) (box : Rect)
    (acc0 : Accums) : Accums :=
  let center := sct.mapWidth.tdiv 2
  let i_m_ofs_0 := (center - jx) + sct.mapWidth * (center - ky)
  (intRange box.yMin box.yMax).foldl
    (fun acc k_s =>
      (intRange box.xMin box.xMax).foldl
        (fun a j_s => periphPixel sct img i_m_ofs_0 a k_s j_s) acc)
    acc0

/-- `scanFromImage` at an integral centre. -/
def scanFromImageZ (sct : LPXTables) (img : Image) (jx ky : ℤ)
    (cells0 : List ℕ) (spRad : ℤ) : Option ScanResult :=
  if sct.initialized = false ∨ img.cols = 0 ∨ img.rows = 0 then none
  else if sct.outerPixelIndex = [] ∨ sct.outerPixelCellIdx = [] ∨ sct.innerCells = [] then none
  else if sct.lastFoveaIndex ≤ 0 ∨ sct.lastCellIndex ≤ sct.lastFoveaIndex then none
  else
    let cellsB := foveaPassZ sct img jx ky cells0
    let acc0 : Accums :=
      ⟨List.replicate cells0.length 0, List.replicate cells0.length 0,
       List.replicate cells0.length 0, List.replicate cells0.length 0⟩
    let box := getScannedBoxZ jx ky img.cols img.rows spRad
    let acc := periphPassZ sct img jx ky box acc0
    some { cells := finalizeCells sct.lastFoveaIndex acc cellsB
           accR := acc.r, accG := acc.g, accB := acc.b, cnt := acc.cnt
           x_ofs := (jx : ℚ), y_ofs := (ky : ℚ), length := cells0.length }

/-! ### Concrete fixtures for witnesses -/

/-- A small concrete scan table: a 4×4 scan map, two fovea cells (cells
0 and 1 at scan-map positions (2,2) and (2,3)), two outer boundary
entries mapping scan-map pixels 0-7 to cell 2 and 8-15 to cell 4, and
five cells in total (`lastCellIndex = 4`), so cell 3 receives no
pixels. -/
def exTables : LPXTables :=
  { initialized := true
    mapWidth := 4
    spiralPer := 127/2
    outerPixelIndex := [0, 8]
    outerPixelCellIdx := [2, 4]
    innerCells := [(2, 2), (2, 3)]
    lastFoveaIndex := 1
    lastCellIndex := 4 }

/-- A concrete 4×4 three-channel frame whose pixel at row `y`, column
`x` has `B = x`, `G = y`, `R = 7`. -/
def exImage : Image :=
  { cols := 4
    rows := 4
    channels := 3
    pix3 := fun y x => ⟨x.toNat % 256, y.toNat % 256, 7⟩
    pix1 := fun _ _ => 0 }

/-- A scan table with a strictly ascending `outerPixelIndex` holding a
negative entry: the binary search still finds it as an ordered
predecessor, but the scan cache skips it, so the two lookups diverge. -/
def cexTables : LPXTables :=
  { initialized := true
    mapWidth := 1
    spiralPer := 127/2
    outerPixelIndex := [-1]
    outerPixelCellIdx := [5]
    innerCells := [(0, 0)]
    lastFoveaIndex := 2
    lastCellIndex := 9 }

/-- The result of scanning `exImage` with `exTables` at centre `(2, 2)`
from the buffer `[9, 9, 9, 9, 9]` with `spRad = 4` (the value of
`scanFromImage` on those inputs). -/
def exScanResult : ScanResult :=
  { cells := [459266, 459522, 458753, 0, 459265]
    accR := [0, 0, 56, 0, 56]
    accG := [0, 0, 4, 0, 20]
    accB := [0, 0, 12, 0, 12]
    cnt := [0, 0, 8, 0, 8]
    x_ofs := 2, y_ofs := 2, length := 5 }

/-! ## Theorems -/

/-- C10: `LPXImage::getCellValue` is a total accessor: it returns
`cellArray[index]` for every in-range index and `0` for every
out-of-range index (negative or beyond the buffer), so it never reads
outside the cell buffer. -/
theorem getCellValue_total_accessor (cells : List ℕ) (i : ℤ) :
    (∀ h : i.toNat < cells.length, 0 ≤ i →
      getCellValue cells i = cells.get ⟨i.toNat, h⟩) ∧
    ((i < 0 ∨ (cells.length : ℤ) ≤ i) → getCellValue cells i = 0) := by
  constructor
  · intro h hi
    have hlt : i < (cells.length : ℤ) := by omega
    unfold getCellValue
    rw [if_pos (show 0 ≤ i ∧ i < (cells.length : ℤ) from ⟨hi, hlt⟩)]
    rw [List.getD_eq_getElem?_getD, List.getElem?_eq_getElem h]
    simp [List.get_eq_getElem]
  · intro hout
    have hc : ¬(0 ≤ i ∧ i < (cells.length : ℤ)) := by omega
    unfold getCellValue
    rw [if_neg hc]

/-- Witness for C10 at a concrete buffer: index 1 is in range, indices
`-1` and `2` are out of range. -/
theorem getCellValue_total_accessor_witness :
    getCellValue [5, 7] 1 = 7 ∧ getCellValue [5, 7] (-1) = 0 ∧
    getCellValue [5, 7] 2 = 0 :=
  ⟨((getCellValue_total_accessor [5, 7] 1).1 (by decide) (by decide)).trans rfl,
   (getCellValue_total_accessor [5, 7] (-1)).2 (by decide),
   (getCellValue_total_accessor [5, 7] 2).2 (by decide)⟩

/-- C8: a declared `total_size` that is negative, zero, or greater than
10 MiB makes `receiveLPXImage` return no image, whatever bytes follow —
the frame body is neither read nor allocated. -/
theorem receive_rejects_bad_size (totalSize : ℤ) (rest : List ℤ)
    (h : totalSize ≤ 0 ∨ 10 * 1024 * 1024 < totalSize) :
    receiveLPXImage (totalSize :: rest) = none := by
  simp only [receiveLPXImage, if_pos h]

/-- Witness for C8: the declared size `2^31 − 1` (bytes `FF FF FF 7F`)
is rejected. -/
theorem receive_rejects_bad_size_witness :
    receiveLPXImage (2147483647 :: [1, 2, 3]) = none ∧
    (10 * 1024 * 1024 : ℤ) < 2147483647 :=
  ⟨receive_rejects_bad_size 2147483647 [1, 2, 3] (Or.inr (by decide)),
   by decide⟩

/-- The clamp `std::max(-m, std::min(m, v))` lands in `[-m, m]` for
non-negative `m`. -/
theorem abs_clampQ_le (m v : ℚ) (hm : 0 ≤ m) : |clampQ (-m) m v| ≤ m := by
  rw [abs_le]
  constructor
  · exact le_max_left _ _
  · exact max_le (by linarith) (min_le_left _ _)

/-- C6: every movement command adds `delta × step` to the fixation
offset and then clamps it, so after every call to
`FileLPXServer::handleMovementCommand` — and hence after any sequence of
movement commands starting from `(0, 0)` — both offsets have magnitude
at most `0.2 × mapWidth`, whenever the scan tables are loaded with
positive `mapWidth`. -/
theorem fixation_clamp_invariant (mapWidth outW outH : ℤ) (hm : 0 < mapWidth) :
    (∀ (st : FixState) (dx dy step : ℚ),
      |(handleMovementCommand true mapWidth outW outH st dx dy step).cx| ≤ (mapWidth : ℚ) * (1/5) ∧
      |(handleMovementCommand true mapWidth outW outH st dx dy step).cy| ≤ (mapWidth : ℚ) * (1/5)) ∧
    (∀ cmds : List (ℚ × ℚ × ℚ),
      |(runMovements true mapWidth outW outH ⟨0, 0⟩ cmds).cx| ≤ (mapWidth : ℚ) * (1/5) ∧
      |(runMovements true mapWidth outW outH ⟨0, 0⟩ cmds).cy| ≤ (mapWidth : ℚ) * (1/5)) := by
  have hmq : (0 : ℚ) ≤ (mapWidth : ℚ) * (1/5) := by
    have : (0 : ℚ) < (mapWidth : ℚ) := by exact_mod_cast hm
    linarith
  have hstep : ∀ (st : FixState) (dx dy step : ℚ),
      |(handleMovementCommand true mapWidth outW outH st dx dy step).cx| ≤ (mapWidth : ℚ) * (1/5) ∧
      |(handleMovementCommand true mapWidth outW outH st dx dy step).cy| ≤ (mapWidth : ℚ) * (1/5) := by
    intro st dx dy step
    unfold handleMovementCommand
    rw [if_pos (show (true = true) ∧ 0 < mapWidth from ⟨rfl, hm⟩)]
    exact ⟨abs_clampQ_le _ _ hmq, abs_clampQ_le _ _ hmq⟩
  refine ⟨hstep, ?_⟩
  intro cmds
  have main : ∀ (cmds : List (ℚ × ℚ × ℚ)) (st : FixState),
      |st.cx| ≤ (mapWidth : ℚ) * (1/5) → |st.cy| ≤ (mapWidth : ℚ) * (1/5) →
      |(runMovements true mapWidth outW outH st cmds).cx| ≤ (mapWidth : ℚ) * (1/5) ∧
      |(runMovements true mapWidth outW outH st cmds).cy| ≤ (mapWidth : ℚ) * (1/5) := by
    intro cmds
    induction cmds with
    | nil => intro st h1 h2; exact ⟨h1, h2⟩
    | cons c rest ih =>
      intro st _ _
      have h := hstep st c.1 c.2.1 c.2.2
      exact ih _ h.1 h.2
  exact main cmds ⟨0, 0⟩ (by simpa using hmq) (by simpa using hmq)

/-- Witness for C6 at `mapWidth = 6000` and three concrete commands. -/
theorem fixation_clamp_invariant_witness :
    |(runMovements true 6000 640 480 ⟨0, 0⟩
        [(1, 0, 10), (1, 0, 2000), (0, -1, 500)]).cx| ≤ (6000 : ℚ) * (1/5) ∧
    |(runMovements true 6000 640 480 ⟨0, 0⟩
        [(1, 0, 10), (1, 0, 2000), (0, -1, 500)]).cy| ≤ (6000 : ℚ) * (1/5) :=
  (fixation_clamp_invariant 6000 640 480 (by decide)).2
    [(1, 0, 10), (1, 0, 2000), (0, -1, 500)]

/-- The pop-until-room loop leaves a queue of fewer than three elements
unchanged. -/
theorem popExcess_of_lt {α : Type} (q : List α) (h : q.length < 3) :
    popExcess q = q := by
  cases q with
  | nil => rfl
  | cons x t =>
    unfold popExcess
    rw [if_neg (by omega)]

/-- On a queue of exactly three elements the pop-until-room loop pops
exactly the oldest one. -/
theorem popExcess_of_three {α : Type} (x : α) (t : List α)
    (h : (x :: t).length = 3) : popExcess (x :: t) = t := by
  unfold popExcess
  rw [if_pos (by omega)]
  apply popExcess_of_lt
  simp only [List.length_cons] at h
  omega

/-- Pushing through the capacity-3 pop-oldest queue keeps exactly the
most recent suffix: folding from any queue holding at most three
elements yields the last three of the concatenation. -/
theorem foldl_pushBounded_drop {α : Type} (xs : List α) :
    ∀ q : List α, q.length ≤ 3 →
      xs.foldl pushBounded q = (q ++ xs).drop (q.length + xs.length - 3) := by
  induction xs with
  | nil =>
    intro q hq
    rw [List.foldl_nil, List.append_nil]
    simp only [List.length_nil, Nat.add_zero]
    rw [Nat.sub_eq_zero_of_le hq, List.drop_zero]
  | cons x rest ih =>
    intro q hq
    by_cases h3 : q.length = 3
    · match q, h3 with
      | a :: t, h3 =>
        have ht2 : t.length = 2 := by
          simp only [List.length_cons] at h3
          omega
        have hpop : pushBounded (a :: t) x = t ++ [x] := by
          unfold pushBounded
          rw [popExcess_of_three a t h3]
        have ht : (t ++ [x]).length ≤ 3 := by
          simp only [List.length_append, List.length_cons, List.length_nil]
          omega
        have hidx1 : (t ++ [x]).length + rest.length - 3 = rest.length := by
          simp only [List.length_append, List.length_cons, List.length_nil, ht2]
          omega
        have hidx2 : (a :: t).length + (x :: rest).length - 3 = rest.length + 1 := by
          simp only [List.length_cons, ht2]
          omega
        calc (x :: rest).foldl pushBounded (a :: t)
            = rest.foldl pushBounded (t ++ [x]) := by rw [List.foldl_cons, hpop]
          _ = ((t ++ [x]) ++ rest).drop ((t ++ [x]).length + rest.length - 3) := ih _ ht
          _ = ((a :: t) ++ x :: rest).drop ((a :: t).length + (x :: rest).length - 3) := by
              rw [hidx1, hidx2, List.append_assoc, List.singleton_append,
                List.cons_append, List.drop_succ_cons]
    · have hlt : q.length < 3 := by omega
      have hpush : pushBounded q x = q ++ [x] := by
        unfold pushBounded
        rw [popExcess_of_lt q hlt]
      have hlen : (q ++ [x]).length ≤ 3 := by
        simp only [List.length_append, List.length_cons, List.length_nil]
        omega
      have hidx : (q ++ [x]).length + rest.length - 3
          = q.length + (x :: rest).length - 3 := by
        simp only [List.length_append, List.length_cons, List.length_nil]
        omega
      calc (x :: rest).foldl pushBounded q
          = rest.foldl pushBounded (q ++ [x]) := by rw [List.foldl_cons, hpush]
        _ = ((q ++ [x]) ++ rest).drop ((q ++ [x]).length + rest.length - 3) := ih _ hlen
        _ = (q ++ x :: rest).drop (q.length + (x :: rest).length - 3) := by
            rw [hidx, List.append_assoc, List.singleton_append]

/-- C7: the frame/broadcast queues have fixed capacity 3 with pop-oldest
semantics and a push never blocks: after pushing `n` items into an empty
queue with no consumer, the queue holds exactly the `min(n, 3)` most
recently pushed items, in order. -/
theorem queue_pop_oldest_bounded (xs : List ℕ) :
    xs.foldl pushBounded [] = xs.drop (xs.length - 3) ∧
    (xs.foldl pushBounded []).length = min xs.length 3 := by
  have h := foldl_pushBounded_drop xs [] (by simp)
  simp only [List.nil_append, List.length_nil, Nat.zero_add] at h
  refine ⟨h, ?_⟩
  rw [h, List.length_drop]
  omega

/-- C4 counterexample: a well-formed scan-tables file whose stored
`spiralPer` integer is 2000 — reconstituted `2000.5 ∉ [0.1, 1000]` — is
not rejected by `LPXTables::load`: the tables come back marked
initialized and the default `63.5` has been silently substituted for
`spiralPer`, contradicting the claim that construction fails without a
default substitution. -/
theorem tables_load_substitutes_default :
    ((2000 : ℚ) + 1/2 < 1/10 ∨ 1000 < (2000 : ℚ) + 1/2) ∧
    (LPXTables.load [9, 6000, 2000, 1, 1, 1, 3, 0, 5, 2, 2]).initialized = true ∧
    (LPXTables.load [9, 6000, 2000, 1, 1, 1, 3, 0, 5, 2, 2]).spiralPer = 127/2 := by
  refine ⟨Or.inr (by norm_num), rfl, ?_⟩
  norm_num [LPXTables.load]

/-- C4 (amended): for every scan-tables file whose stored integer
`spiralPer`, reconstituted as `int + 0.5`, lies outside `[0.1, 1000]`,
`LPXTables::load` silently substitutes the default `63.5` and proceeds,
marking the tables initialized. -/
theorem tables_load_out_of_range_defaults (file : List ℤ)
    (h : (file.getD 2 0 : ℚ) + 1/2 < 1/10 ∨ 1000 < (file.getD 2 0 : ℚ) + 1/2) :
    (LPXTables.load file).initialized = true ∧
    (LPXTables.load file).spiralPer = 127/2 := by
  unfold LPXTables.load
  refine ⟨rfl, ?_⟩
  simp only
  rw [if_pos h]

/-- Witness for the amended C4 at a concrete file with stored
`spiralPer` integer `-7` (reconstituted `-6.5 < 0.1`). -/
theorem tables_load_out_of_range_defaults_witness :
    (LPXTables.load [9, 6000, -7, 1, 1, 1, 3, 0, 5, 2, 2]).initialized = true ∧
    (LPXTables.load [9, 6000, -7, 1, 1, 1, 3, 0, 5, 2, 2]).spiralPer = 127/2 :=
  tables_load_out_of_range_defaults [9, 6000, -7, 1, 1, 1, 3, 0, 5, 2, 2]
    (Or.inl (by norm_num))

/-- The integer truncation of a rational differs from it by less than
one. -/
theorem ratTrunc_close (q : ℚ) : |(ratTrunc q : ℚ) - q| < 1 := by
  unfold ratTrunc
  split_ifs with h
  · rw [abs_lt]
    constructor
    · have := Int.lt_floor_add_one q
      linarith
    · have := Int.floor_le q
      linarith
  · rw [abs_lt]
    constructor
    · have := Int.le_ceil q
      linarith
    · have := Int.ceil_lt_add_one q
      linarith

/-- Truncating a rational of the form `n + 1/2` (natural `n`) recovers
`n`. -/
theorem ratTrunc_natCast_add_half (n : ℕ) : ratTrunc ((n : ℚ) + 1/2) = n := by
  unfold ratTrunc
  rw [if_pos (by positivity)]
  rw [Int.floor_eq_iff]
  constructor
  · push_cast
    linarith
  · push_cast
    linarith

/-- C5 counterexample: the image with `spiralPer = 64` does not round
trip: `saveToFile` writes `int(spiralPer) = 64` and `loadFromFile`
reconstitutes `64.5 ≠ 64`, so the reconstructed image is not bit-exact
in all fields for every `LPXImage`. -/
theorem save_load_changes_spiralPer :
    (loadFromFile (saveToFile ⟨1, 1, 64, 2, 2, 0, 0, [7]⟩)).spiralPer ≠
      (⟨1, 1, 64, 2, 2, 0, 0, [7]⟩ : LPXImageState).spiralPer := by
  norm_num [loadFromFile, saveToFile, ratTrunc, takePadZ]

/-- Scaling a truncated `× 1e5` encoding back by `× 1e-5` recovers the
original value to within `1e-5`. -/
theorem ratTrunc_scale_close (x : ℚ) :
    |(ratTrunc (x * 100000) : ℚ) * (1/100000) - x| < 1/100000 := by
  have h := ratTrunc_close (x * 100000)
  have hrw : (ratTrunc (x * 100000) : ℚ) * (1/100000) - x
      = ((ratTrunc (x * 100000) : ℚ) - x * 100000) * (1/100000) := by ring
  rw [hrw, abs_mul, abs_of_pos (show (0:ℚ) < 1/100000 by norm_num)]
  calc |(ratTrunc (x * 100000) : ℚ) - x * 100000| * (1/100000)
      < 1 * (1/100000) := by
        apply mul_lt_mul_of_pos_right h
        norm_num
    _ = 1/100000 := by ring

/-- C5 (amended): the save/load round trip is bit-exact in `length`,
`nMaxCells`, `spiralPer`, `width`, `height` and every packed cell value,
and recovers `x_ofs`/`y_ofs` to within `1e-5`, for every image whose
`spiralPer` has the `n + 0.5` form the loader's `int + 0.5`
reconstitution can represent and whose `length` field matches its cell
buffer (both hold for every scanned image: `spiralPer` is inherited from
tables loaded as `int + 0.5` and `length` is set to the buffer size). -/
theorem save_load_round_trip (img : LPXImageState)
    (hsp : ∃ n : ℕ, img.spiralPer = (n : ℚ) + 1/2)
    (hlen : img.length = (img.cellArray.length : ℤ)) :
    (loadFromFile (saveToFile img)).length = img.length ∧
    (loadFromFile (saveToFile img)).nMaxCells = img.nMaxCells ∧
    (loadFromFile (saveToFile img)).spiralPer = img.spiralPer ∧
    (loadFromFile (saveToFile img)).width = img.width ∧
    (loadFromFile (saveToFile img)).height = img.height ∧
    (loadFromFile (saveToFile img)).cellArray = img.cellArray ∧
    |(loadFromFile (saveToFile img)).x_ofs - img.x_ofs| < 1/100000 ∧
    |(loadFromFile (saveToFile img)).y_ofs - img.y_ofs| < 1/100000 := by
  obtain ⟨n, hn⟩ := hsp
  have hgd : ∀ k : ℕ, k < 8 → (saveToFile img).getD k 0 =
      [8 + img.length, img.length, img.nMaxCells, ratTrunc img.spiralPer,
       img.width, img.height, ratTrunc (img.x_ofs * 100000),
       ratTrunc (img.y_ofs * 100000)].getD k 0 := by
    intro k hk
    unfold saveToFile
    rw [List.getD_append]
    simp only [List.length_cons, List.length_nil]
    omega
  have hdrop : (saveToFile img).drop 8 = img.cellArray.map (fun c : ℕ => (c : ℤ)) := by
    unfold saveToFile
    rfl
  have hcells : (loadFromFile (saveToFile img)).cellArray = img.cellArray := by
    unfold loadFromFile
    simp only
    rw [hdrop, hgd 1 (by omega)]
    simp only [List.getD_cons_succ, List.getD_cons_zero]
    have htn : img.length.toNat = img.cellArray.length := by omega
    unfold takePadZ
    rw [htn, List.length_map, Nat.sub_self, List.replicate_zero, List.append_nil]
    rw [show img.cellArray.length = (img.cellArray.map (fun c : ℕ => (c : ℤ))).length from
      (List.length_map _ _).symm]
    rw [List.take_length, List.map_map]
    simp [Function.comp_def]
  have hsp2 : (loadFromFile (saveToFile img)).spiralPer = img.spiralPer := by
    unfold loadFromFile
    simp only
    rw [hgd 3 (by omega)]
    simp only [List.getD_cons_succ, List.getD_cons_zero]
    rw [hn, ratTrunc_natCast_add_half,
      if_neg (show ¬((((n : ℤ) : ℚ)) + 1/2 < 1/10) by
        push_cast
        have h0 : (0 : ℚ) ≤ (n : ℚ) := Nat.cast_nonneg n
        linarith)]
    push_cast
    ring
  refine ⟨?_, ?_, hsp2, ?_, ?_, hcells, ?_, ?_⟩
  · unfold loadFromFile
    simp only
    rw [hgd 1 (by omega)]
    simp
  · unfold loadFromFile
    simp only
    rw [hgd 2 (by omega)]
    simp
  · unfold loadFromFile
    simp only
    rw [hgd 4 (by omega)]
    simp
  · unfold loadFromFile
    simp only
    rw [hgd 5 (by omega)]
    simp
  · unfold loadFromFile
    simp only
    rw [hgd 6 (by omega)]
    simp only [List.getD_cons_succ, List.getD_cons_zero]
    exact ratTrunc_scale_close img.x_ofs
  · unfold loadFromFile
    simp only
    rw [hgd 7 (by omega)]
    simp only [List.getD_cons_succ, List.getD_cons_zero]
    exact ratTrunc_scale_close img.y_ofs

/-- Witness for the amended C5 at a concrete image with
`spiralPer = 63.5` and a one-cell buffer. -/
theorem save_load_round_trip_witness :
    (loadFromFile (saveToFile ⟨1, 4, 127/2, 640, 480, 3/10, -7/10, [66051]⟩)).cellArray
      = [66051] ∧
    (loadFromFile (saveToFile ⟨1, 4, 127/2, 640, 480, 3/10, -7/10, [66051]⟩)).spiralPer
      = 127/2 :=
  ⟨(save_load_round_trip ⟨1, 4, 127/2, 640, 480, 3/10, -7/10, [66051]⟩
      ⟨63, by norm_num⟩ (by norm_num)).2.2.2.2.2.1,
   (save_load_round_trip ⟨1, 4, 127/2, 640, 480, 3/10, -7/10, [66051]⟩
      ⟨63, by norm_num⟩ (by norm_num)).2.2.1⟩

/-- Truncation of an integral rational is the integer itself. -/
theorem ratTrunc_intCast (m : ℤ) : ratTrunc (m : ℚ) = m := by
  unfold ratTrunc
  split_ifs
  · exact Int.floor_intCast m
  · exact Int.ceil_intCast m

/-- Truncation of a sum of integral rationals. -/
theorem ratTrunc_intCast_add (m n : ℤ) :
    ratTrunc ((m : ℚ) + (n : ℚ)) = m + n := by
  rw [← Int.cast_add, ratTrunc_intCast]

/-- Rounding `m + 1/2` down gives back the integer `m`. -/
theorem floor_intCast_add_half (m : ℤ) : ⌊(m : ℚ) + 1/2⌋ = m := by
  rw [show (m : ℚ) + 1/2 = ((2 * m + 1 : ℤ) : ℚ) / ((2 : ℕ) : ℚ) by push_cast; ring]
  rw [Rat.floor_intCast_div_natCast]
  omega

/-- The box half-width `floor(0.5·w + 0.5)` in integer arithmetic. -/
theorem floor_half_mul_intCast (w : ℤ) :
    ⌊(1/2 : ℚ) * (w : ℚ) + 1/2⌋ = (w + 1) / 2 := by
  rw [show (1/2 : ℚ) * (w : ℚ) + 1/2 = ((w + 1 : ℤ) : ℚ) / ((2 : ℕ) : ℚ) by push_cast; ring]
  rw [Rat.floor_intCast_div_natCast]
  norm_num

/-- The fovea sample column at an integral centre, in integer
arithmetic. -/
theorem foveaX_intCast (sct : LPXTables) (jx : ℤ) (i : ℕ) :
    foveaX sct (jx : ℚ) i = jx + ((sct.innerCells.getD i (0, 0)).1 - sct.mapWidth.tdiv 2) := by
  unfold foveaX
  rw [ratTrunc_intCast_add]

/-- The fovea sample row at an integral centre, in integer
arithmetic. -/
theorem foveaY_intCast (sct : LPXTables) (ky : ℤ) (i : ℕ) :
    foveaY sct (ky : ℚ) i = ky + ((sct.innerCells.getD i (0, 0)).2 - sct.mapWidth.tdiv 2) := by
  unfold foveaY
  rw [ratTrunc_intCast_add]

/-- The fovea step at an integral centre agrees with its integer
restatement. -/
theorem foveaStep_intCast (sct : LPXTables) (img : Image) (jx ky : ℤ) :
    foveaStep sct img (jx : ℚ) (ky : ℚ) = foveaStepZ sct img jx ky := by
  funext cells i
  simp only [foveaStep, foveaStepZ, foveaX_intCast, foveaY_intCast]

/-- The fovea pass at an integral centre agrees with its integer
restatement. -/
theorem foveaPass_intCast (sct : LPXTables) (img : Image) (jx ky : ℤ)
    (cells0 : List ℕ) :
    foveaPass sct img (jx : ℚ) (ky : ℚ) cells0 = foveaPassZ sct img jx ky cells0 := by
  unfold foveaPass foveaPassZ
  rw [foveaStep_intCast]

/-- The scan box at an integral centre agrees with its integer
restatement. -/
theorem getScannedBox_intCast (jx ky width height spRad : ℤ) :
    getScannedBox (jx : ℚ) (ky : ℚ) width height spRad
      = getScannedBoxZ jx ky width height spRad := by
  unfold getScannedBox getScannedBoxZ
  rw [floor_intCast_add_half, floor_intCast_add_half,
    floor_half_mul_intCast, floor_half_mul_intCast]

/-- The peripheral pass at an integral centre agrees with its integer
restatement. -/
theorem periphPass_intCast (sct : LPXTables) (img : Image) (jx ky : ℤ)
    (box : Rect) (acc0 : Accums) :
    periphPass sct img (jx : ℚ) (ky : ℚ) box acc0
      = periphPassZ sct img jx ky box acc0 := by
  unfold periphPass periphPassZ
  rw [ratTrunc_intCast, ratTrunc_intCast]

/-- The scan at an integral centre agrees with its integer restatement,
so concrete scans may be evaluated on the integer layer. -/
theorem scanFromImage_intCast (sct : LPXTables) (img : Image) (jx ky : ℤ)
    (cells0 : List ℕ) (spRad : ℤ) :
    scanFromImage sct img (jx : ℚ) (ky : ℚ) cells0 spRad
      = scanFromImageZ sct img jx ky cells0 spRad := by
  unfold scanFromImage scanFromImageZ
  simp only [foveaPass_intCast, getScannedBox_intCast, periphPass_intCast]

/-- One fovea iteration never changes the cell-buffer size. -/
theorem foveaStep_length (sct : LPXTables) (img : Image) (cx cy : ℚ)
    (cells : List ℕ) (i : ℕ) :
    (foveaStep sct img cx cy cells i).length = cells.length := by
  unfold foveaStep
  dsimp only
  split
  · split
    · rfl
    · split
      · simp [List.length_set]
      · rfl
  · rfl

/-- Folding fovea iterations never changes the cell-buffer size. -/
theorem foldl_foveaStep_length (sct : LPXTables) (img : Image) (cx cy : ℚ)
    (l : List ℕ) :
    ∀ cells : List ℕ,
      (l.foldl (foveaStep sct img cx cy) cells).length = cells.length := by
  induction l with
  | nil => intro cells; rfl
  | cons i rest ih =>
    intro cells
    rw [List.foldl_cons, ih, foveaStep_length]

/-- The fovea pass never changes the cell-buffer size. -/
theorem foveaPass_length (sct : LPXTables) (img : Image) (cx cy : ℚ)
    (cells0 : List ℕ) :
    (foveaPass sct img cx cy cells0).length = cells0.length :=
  foldl_foveaStep_length sct img cx cy _ cells0

/-- `List.getD` after an update at a different index. -/
theorem getD_set_ne {α : Type} (l : List α) (m n : ℕ) (a d : α) (h : m ≠ n) :
    (l.set m a).getD n d = l.getD n d := by
  rw [List.getD_eq_getElem?_getD, List.getElem?_set_ne h, ← List.getD_eq_getElem?_getD]

/-- `List.getD` after an update at the same (in-range) index. -/
theorem getD_set_self {α : Type} (l : List α) (m : ℕ) (a d : α) (h : m < l.length) :
    (l.set m a).getD m d = a := by
  rw [List.getD_eq_getElem?_getD, List.getElem?_set_eq_of_lt a h]
  rfl

/-- `List.getD` on a replicated list at an in-range index. -/
theorem getD_replicate_lt {α : Type} (n k : ℕ) (a d : α) (h : k < n) :
    (List.replicate n a).getD k d = a := by
  rw [List.getD_eq_getElem?_getD, List.getElem?_replicate, if_pos h]
  rfl

/-- `List.getD` on an all-zero buffer. -/
theorem getD_replicate_zero (n k : ℕ) : (List.replicate n (0 : ℕ)).getD k 0 = 0 := by
  rw [List.getD_eq_getElem?_getD, List.getElem?_getD_replicate_default_eq]

/-- A fovea iteration whose target cell differs from `k` leaves cell `k`
unchanged. -/
theorem foveaStep_getD_ne (sct : LPXTables) (img : Image) (cx cy : ℚ)
    (cells : List ℕ) (i k : ℕ)
    (hne : foveaTarget sct cells.length i ≠ (k : ℤ)) :
    (foveaStep sct img cx cy cells i).getD k 0 = cells.getD k 0 := by
  unfold foveaStep
  dsimp only
  split
  · cases hs : sampleColor img (foveaY sct cy i) (foveaX sct cx i) with
    | none => rfl
    | some color =>
      dsimp only
      split
      · next h2 =>
        apply getD_set_ne
        intro heq
        apply hne
        rw [← heq, Int.toNat_of_nonneg h2.1]
      · rfl
  · rfl

/-- Folding fovea iterations none of which targets cell `k` leaves cell
`k` unchanged. -/
theorem foldl_foveaStep_stable (sct : LPXTables) (img : Image) (cx cy : ℚ)
    (l : List ℕ) :
    ∀ (cells : List ℕ) (k : ℕ),
      (∀ i ∈ l, foveaTarget sct cells.length i ≠ (k : ℤ)) →
      (l.foldl (foveaStep sct img cx cy) cells).getD k 0 = cells.getD k 0 := by
  induction l with
  | nil => intro cells k _; rfl
  | cons i rest ih =>
    intro cells k hl
    rw [List.foldl_cons]
    rw [ih _ k ?_, foveaStep_getD_ne _ _ _ _ _ _ _ (hl i (by simp))]
    intro i' hi'
    rw [foveaStep_length]
    exact hl i' (by simp [hi'])

/-- The fovea iteration at `k` itself — in fovea range, inside the cell
buffer, sampling an in-frame pixel — writes that pixel's packed BGR into
cell `k`. -/
theorem foveaStep_getD_write (sct : LPXTables) (img : Image) (cx cy : ℚ)
    (cells : List ℕ) (k : ℕ) (col : BGR)
    (hx : 0 ≤ foveaX sct cx k ∧ foveaX sct cx k < img.cols)
    (hy : 0 ≤ foveaY sct cy k ∧ foveaY sct cy k < img.rows)
    (hs : sampleColor img (foveaY sct cy k) (foveaX sct cx k) = some col)
    (hkf : (k : ℤ) ≤ sct.lastFoveaIndex)
    (hklen : k < cells.length) :
    (foveaStep sct img cx cy cells k).getD k 0 = packColor col.r col.g col.b := by
  unfold foveaStep
  dsimp only
  rw [if_pos ⟨hx.1, hx.2, hy.1, hy.2⟩, hs]
  have htar : foveaTarget sct cells.length k = (k : ℤ) := by
    unfold foveaTarget
    rw [if_pos ⟨hkf, by exact_mod_cast hklen⟩]
  dsimp only
  rw [htar, if_pos ⟨Int.natCast_nonneg k, by exact_mod_cast hklen⟩]
  rw [Int.toNat_natCast]
  exact getD_set_self cells k _ _ hklen

/-- The fovea pass writes the directly-sampled packed BGR of an in-frame
pixel into its fovea cell `k`, and no later iteration overwrites it
provided every peripheral-mapped inner entry targets a cell beyond the
fovea. -/
theorem foveaPass_fovea_write (sct : LPXTables) (img : Image) (cx cy : ℚ)
    (cells0 : List ℕ) (k : ℕ) (col : BGR)
    (hkin : k < sct.innerCells.length)
    (hx : 0 ≤ foveaX sct cx k ∧ foveaX sct cx k < img.cols)
    (hy : 0 ≤ foveaY sct cy k ∧ foveaY sct cy k < img.rows)
    (hs : sampleColor img (foveaY sct cy k) (foveaX sct cx k) = some col)
    (hkf : (k : ℤ) ≤ sct.lastFoveaIndex)
    (hklen : k < cells0.length)
    (hafter : ∀ i' : ℕ, k < i' → i' < sct.innerCells.length →
      foveaTarget sct cells0.length i' ≠ (k : ℤ)) :
    (foveaPass sct img cx cy cells0).getD k 0 = packColor col.r col.g col.b := by
  unfold foveaPass
  rw [show List.range sct.innerCells.length
      = List.range (k + 1)
        ++ (List.range (sct.innerCells.length - (k + 1))).map ((k + 1) + ·) by
    rw [← List.range_add]
    congr 1
    omega]
  rw [List.foldl_append, List.range_succ, List.foldl_append, List.foldl_cons,
    List.foldl_nil]
  have hlenK : ((List.range k).foldl (foveaStep sct img cx cy) cells0).length
      = cells0.length := foldl_foveaStep_length sct img cx cy _ cells0
  rw [foldl_foveaStep_stable sct img cx cy _ _ k ?_]
  · exact foveaStep_getD_write sct img cx cy _ k col hx hy hs hkf (by omega)
  · intro i' hi'
    rw [foveaStep_length, hlenK]
    simp only [List.mem_map, List.mem_range] at hi'
    obtain ⟨t, ht, rfl⟩ := hi'
    exact hafter (k + 1 + t) (by omega) (by omega)

/-- A peripheral pixel never touches the count of a fovea cell. -/
theorem periphPixel_cnt_fovea (sct : LPXTables) (img : Image) (ofs : ℤ)
    (acc : Accums) (k_s j_s : ℤ) (j : ℕ)
    (hj : (j : ℤ) ≤ sct.lastFoveaIndex) :
    (periphPixel sct img ofs acc k_s j_s).cnt.getD j 0 = acc.cnt.getD j 0 := by
  unfold periphPixel
  dsimp only
  split
  · rfl
  · split
    · rfl
    · next hcell =>
      split
      · cases hs : sampleColor img k_s j_s with
        | none => rfl
        | some color =>
          dsimp only
          apply getD_set_ne
          have hgt : sct.lastFoveaIndex < findCell sct (ofs + sct.mapWidth * k_s + j_s) := by
            omega
          omega
      · rfl

/-- A whole peripheral row never touches the count of a fovea cell. -/
theorem periphRow_cnt_fovea (sct : LPXTables) (img : Image) (ofs : ℤ)
    (cols : List ℤ) :
    ∀ (acc : Accums) (k_s : ℤ) (j : ℕ), (j : ℤ) ≤ sct.lastFoveaIndex →
      ((cols.foldl (fun a j_s => periphPixel sct img ofs a k_s j_s) acc).cnt.getD j 0
        = acc.cnt.getD j 0) := by
  induction cols with
  | nil => intro acc k_s j _; rfl
  | cons c rest ih =>
    intro acc k_s j hj
    rw [List.foldl_cons, ih _ k_s j hj, periphPixel_cnt_fovea sct img ofs acc k_s c j hj]

/-- The peripheral pass never touches the count of a fovea cell. -/
theorem periphPass_cnt_fovea (sct : LPXTables) (img : Image) (cx cy : ℚ)
    (box : Rect) (acc0 : Accums) (j : ℕ)
    (hj : (j : ℤ) ≤ sct.lastFoveaIndex) :
    (periphPass sct img cx cy box acc0).cnt.getD j 0 = acc0.cnt.getD j 0 := by
  unfold periphPass
  dsimp only
  generalize intRange box.yMin box.yMax = rows
  induction rows generalizing acc0 with
  | nil => rfl
  | cons r rest ih =>
    rw [List.foldl_cons, ih, periphRow_cnt_fovea sct img _ _ acc0 r j hj]

/-- Pointwise description of the finalisation pass. -/
theorem finalizeCells_getD (lf : ℤ) (acc : Accums) (cells : List ℕ) (i : ℕ)
    (h : i < cells.length) :
    (finalizeCells lf acc cells).getD i 0 =
      (if 0 < acc.cnt.getD i 0 then
        packColor (acc.r.getD i 0 / acc.cnt.getD i 0)
          (acc.g.getD i 0 / acc.cnt.getD i 0) (acc.b.getD i 0 / acc.cnt.getD i 0)
      else if (i : ℤ) ≤ lf then cells.getD i 0 else 0) := by
  unfold finalizeCells
  rw [List.getD_eq_getElem?_getD, List.getElem?_map, List.getElem?_range h]
  rfl

/-- Pointwise description of the optimized finalisation pass. -/
theorem optFinalize_getD (lf : ℤ) (acc : Accums) (cells : List ℕ) (i : ℕ)
    (h : i < cells.length) :
    (optFinalize lf acc cells).getD i 0 =
      (if 0 < acc.cnt.getD i 0 then
        packColor (acc.r.getD i 0 / acc.cnt.getD i 0)
          (acc.g.getD i 0 / acc.cnt.getD i 0) (acc.b.getD i 0 / acc.cnt.getD i 0)
      else if lf < (i : ℤ) then 0 else cells.getD i 0) := by
  unfold optFinalize
  rw [List.getD_eq_getElem?_getD, List.getElem?_map, List.getElem?_range h]
  rfl

/-- A successful scan is exactly the fovea pass, the peripheral pass
over the scan box, and the finalisation, with the validation conditions
all passed. -/
theorem scanFromImage_success (sct : LPXTables) (img : Image) (cx cy : ℚ)
    (cells0 : List ℕ) (spRad : ℤ) (st : ScanResult)
    (hscan : scanFromImage sct img cx cy cells0 spRad = some st) :
    (¬(sct.initialized = false ∨ img.cols = 0 ∨ img.rows = 0)) ∧
    (¬(sct.outerPixelIndex = [] ∨ sct.outerPixelCellIdx = [] ∨ sct.innerCells = [])) ∧
    (¬(sct.lastFoveaIndex ≤ 0 ∨ sct.lastCellIndex ≤ sct.lastFoveaIndex)) ∧
    st = (let cellsB := foveaPass sct img cx cy cells0
          let acc0 : Accums :=
            ⟨List.replicate cells0.length 0, List.replicate cells0.length 0,
             List.replicate cells0.length 0, List.replicate cells0.length 0⟩
          let acc := periphPass sct img cx cy
            (getScannedBox cx cy img.cols img.rows spRad) acc0
          { cells := finalizeCells sct.lastFoveaIndex acc cellsB
            accR := acc.r, accG := acc.g, accB := acc.b, cnt := acc.cnt
            x_ofs := cx, y_ofs := cy, length := cells0.length }) := by
  unfold scanFromImage at hscan
  split_ifs at hscan with h1 h2 h3
  exact ⟨h1, h2, h3, (Option.some.injEq _ _ ▸ hscan).symm⟩

/-- C1: after every successful scan, every cell index `i ≤ lastCellIndex`
satisfies the finalisation postcondition: a positive count gives the
packed BGR of the truncating-average of the accumulators, a zero count
beyond the fovea gives black, and a zero count inside the fovea keeps
the fovea pass's value; the same holds for the finalisation of the
optimized scanner. -/
theorem scan_finalize_postcondition (sct : LPXTables) (img : Image)
    (cx cy : ℚ) (cells0 : List ℕ) (spRad : ℤ)
    (h : (scanFromImage sct img cx cy cells0 spRad).isSome = true)
    (hn : (cells0.length : ℤ) = sct.lastCellIndex + 1) :
    (∀ i : ℕ, (i : ℤ) ≤ sct.lastCellIndex →
      (0 < ((scanFromImage sct img cx cy cells0 spRad).get h).cnt.getD i 0 →
        ((scanFromImage sct img cx cy cells0 spRad).get h).cells.getD i 0 =
          packColor
            (((scanFromImage sct img cx cy cells0 spRad).get h).accR.getD i 0 /
              ((scanFromImage sct img cx cy cells0 spRad).get h).cnt.getD i 0)
            (((scanFromImage sct img cx cy cells0 spRad).get h).accG.getD i 0 /
              ((scanFromImage sct img cx cy cells0 spRad).get h).cnt.getD i 0)
            (((scanFromImage sct img cx cy cells0 spRad).get h).accB.getD i 0 /
              ((scanFromImage sct img cx cy cells0 spRad).get h).cnt.getD i 0)) ∧
      (((scanFromImage sct img cx cy cells0 spRad).get h).cnt.getD i 0 = 0 →
        sct.lastFoveaIndex < (i : ℤ) →
        ((scanFromImage sct img cx cy cells0 spRad).get h).cells.getD i 0 = 0) ∧
      (((scanFromImage sct img cx cy cells0 spRad).get h).cnt.getD i 0 = 0 →
        (i : ℤ) ≤ sct.lastFoveaIndex →
        ((scanFromImage sct img cx cy cells0 spRad).get h).cells.getD i 0 =
          (foveaPass sct img cx cy cells0).getD i 0)) ∧
    (∀ (acc : Accums) (cells : List ℕ) (i : ℕ), i < cells.length →
      (0 < acc.cnt.getD i 0 →
        (optFinalize sct.lastFoveaIndex acc cells).getD i 0 =
          packColor (acc.r.getD i 0 / acc.cnt.getD i 0)
            (acc.g.getD i 0 / acc.cnt.getD i 0) (acc.b.getD i 0 / acc.cnt.getD i 0)) ∧
      (acc.cnt.getD i 0 = 0 → sct.lastFoveaIndex < (i : ℤ) →
        (optFinalize sct.lastFoveaIndex acc cells).getD i 0 = 0) ∧
      (acc.cnt.getD i 0 = 0 → (i : ℤ) ≤ sct.lastFoveaIndex →
        (optFinalize sct.lastFoveaIndex acc cells).getD i 0 = cells.getD i 0)) := by
  obtain ⟨st, hst⟩ := Option.isSome_iff_exists.mp h
  have hget : (scanFromImage sct img cx cy cells0 spRad).get h = st := by
    rw [Option.get_of_mem h hst]
  obtain ⟨hv1, hv2, hv3, hshape⟩ :=
    scanFromImage_success sct img cx cy cells0 spRad st hst
  constructor
  · intro i hi
    have hilen : i < cells0.length := by omega
    have hilenB : i < (foveaPass sct img cx cy cells0).length := by
      rw [foveaPass_length]; exact hilen
    rw [hget, hshape]
    dsimp only
    rw [finalizeCells_getD _ _ _ _ hilenB]
    refine ⟨?_, ?_, ?_⟩
    · intro hc
      rw [if_pos hc]
    · intro hc hfov
      rw [if_neg (by omega), if_neg (by omega)]
    · intro hc hfov
      rw [if_neg (by omega), if_pos hfov]
  · intro acc cells i hi
    rw [optFinalize_getD _ _ _ _ hi]
    refine ⟨?_, ?_, ?_⟩
    · intro hc
      rw [if_pos hc]
    · intro hc hfov
      rw [if_neg (by omega), if_pos hfov]
    · intro hc hfov
      rw [if_neg (by omega), if_neg (by omega)]

/-- C2: fovea override.  For every scan and every fovea index
`k ≤ lastFoveaIndex` whose `innerCells[k]` entry, translated by the
fixation centre, lands on an in-frame pixel, the scanned `cells[k]`
equals that pixel's packed BGR exactly — the direct sample of the fovea
pass, which neither the peripheral pass nor the finalisation
overwrites.  The table hypothesis `htab` is the data-model invariant
that peripheral-mapped entries target cells beyond the fovea. -/
theorem fovea_override (sct : LPXTables) (img : Image) (cx cy : ℚ)
    (cells0 : List ℕ) (spRad : ℤ) (k : ℕ) (col : BGR)
    (h : (scanFromImage sct img cx cy cells0 spRad).isSome = true)
    (hn : (cells0.length : ℤ) = sct.lastCellIndex + 1)
    (hk : (k : ℤ) ≤ sct.lastFoveaIndex)
    (hkin : k < sct.innerCells.length)
    (hx : 0 ≤ foveaX sct cx k ∧ foveaX sct cx k < img.cols)
    (hy : 0 ≤ foveaY sct cy k ∧ foveaY sct cy k < img.rows)
    (hs : sampleColor img (foveaY sct cy k) (foveaX sct cx k) = some col)
    (htab : ∀ i' : ℕ, i' < sct.innerCells.length → sct.lastFoveaIndex < (i' : ℤ) →
      sct.lastFoveaIndex < sct.outerPixelCellIdx.getD i' 0) :
    ((scanFromImage sct img cx cy cells0 spRad).get h).cells.getD k 0
      = packColor col.r col.g col.b ∧
    ((scanFromImage sct img cx cy cells0 spRad).get h).cells.getD k 0
      = (foveaPass sct img cx cy cells0).getD k 0 := by
  obtain ⟨st, hst⟩ := Option.isSome_iff_exists.mp h
  have hget : (scanFromImage sct img cx cy cells0 spRad).get h = st :=
    Option.get_of_mem h hst
  obtain ⟨hv1, hv2, hv3, hshape⟩ :=
    scanFromImage_success sct img cx cy cells0 spRad st hst
  have hklen : k < cells0.length := by omega
  have hafter : ∀ i' : ℕ, k < i' → i' < sct.innerCells.length →
      foveaTarget sct cells0.length i' ≠ (k : ℤ) := by
    intro i' hki' hi'in heq
    unfold foveaTarget at heq
    by_cases hc : (i' : ℤ) ≤ sct.lastFoveaIndex ∧ (i' : ℤ) < (cells0.length : ℤ)
    · rw [if_pos hc] at heq
      omega
    · rw [if_neg hc] at heq
      have hgt : sct.lastFoveaIndex < (i' : ℤ) := by omega
      have := htab i' hi'in hgt
      omega
  have hkeep : st.cells.getD k 0 = (foveaPass sct img cx cy cells0).getD k 0 := by
    rw [hshape]
    dsimp only
    rw [finalizeCells_getD _ _ _ k (by rw [foveaPass_length]; exact hklen)]
    rw [periphPass_cnt_fovea sct img cx cy _ _ k hk, getD_replicate_zero]
    rw [if_neg (by omega), if_pos hk]
  refine ⟨?_, by rw [hget]; exact hkeep⟩
  rw [hget, hkeep]
  exact foveaPass_fovea_write sct img cx cy cells0 k col hkin hx hy hs hk hklen hafter

set_option maxRecDepth 40000 in
/-- Witness for C1 on the concrete fixture: cell 3 has no mapped pixels
and is cleared, fovea cell 1 keeps the fovea pass's value, and cell 2
holds the packed truncating average of its eight pixels. -/
theorem scan_finalize_postcondition_witness :
    scanFromImage exTables exImage 2 2 [9, 9, 9, 9, 9] 4 = some exScanResult ∧
    exScanResult.cells.getD 3 0 = 0 ∧
    exScanResult.cells.getD 1 0 = (foveaPass exTables exImage 2 2 [9, 9, 9, 9, 9]).getD 1 0 ∧
    exScanResult.cells.getD 2 0 = packColor (56 / 8) (4 / 8) (12 / 8) := by
  have hZ : scanFromImageZ exTables exImage 2 2 [9, 9, 9, 9, 9] 4 = some exScanResult := by
    decide
  have hst : scanFromImage exTables exImage 2 2 [9, 9, 9, 9, 9] 4 = some exScanResult := by
    rw [show (2 : ℚ) = ((2 : ℤ) : ℚ) by norm_num, scanFromImage_intCast]
    exact hZ
  have h : (scanFromImage exTables exImage 2 2 [9, 9, 9, 9, 9] 4).isSome = true := by
    rw [hst]; rfl
  have main := scan_finalize_postcondition exTables exImage 2 2 [9, 9, 9, 9, 9] 4 h (by decide)
  have hget : (scanFromImage exTables exImage 2 2 [9, 9, 9, 9, 9] 4).get h = exScanResult :=
    Option.get_of_mem h hst
  have h3 := (main.1 3 (by decide)).2.1
  have h1 := (main.1 1 (by decide)).2.2
  have h2 := (main.1 2 (by decide)).1
  rw [hget] at h3 h1 h2
  exact ⟨hst, h3 (by decide) (by decide), h1 (by decide) (by decide),
    (h2 (by decide)).trans (by decide)⟩

set_option maxRecDepth 40000 in
/-- Witness for C2 on the concrete fixture: fovea cell 0 samples pixel
`(2, 2)` — BGR `(2, 2, 7)` — and the scan leaves exactly its packing
there. -/
theorem fovea_override_witness :
    scanFromImage exTables exImage 2 2 [9, 9, 9, 9, 9] 4 = some exScanResult ∧
    exScanResult.cells.getD 0 0 = packColor 7 2 2 := by
  have hZ : scanFromImageZ exTables exImage 2 2 [9, 9, 9, 9, 9] 4 = some exScanResult := by
    decide
  have hst : scanFromImage exTables exImage 2 2 [9, 9, 9, 9, 9] 4 = some exScanResult := by
    rw [show (2 : ℚ) = ((2 : ℤ) : ℚ) by norm_num, scanFromImage_intCast]
    exact hZ
  have h : (scanFromImage exTables exImage 2 2 [9, 9, 9, 9, 9] 4).isSome = true := by
    rw [hst]; rfl
  have hfx : foveaX exTables (2 : ℚ) 0 = 2 := by
    rw [show (2 : ℚ) = ((2 : ℤ) : ℚ) by norm_num, foveaX_intCast]
    decide
  have hfy : foveaY exTables (2 : ℚ) 0 = 2 := by
    rw [show (2 : ℚ) = ((2 : ℤ) : ℚ) by norm_num, foveaY_intCast]
    decide
  have main := fovea_override exTables exImage 2 2 [9, 9, 9, 9, 9] 4 0 ⟨2, 2, 7⟩ h
    (by decide) (by decide) (by decide)
    (by rw [hfx]; exact ⟨by decide, by decide⟩)
    (by rw [hfy]; exact ⟨by decide, by decide⟩)
    (by rw [hfx, hfy]; decide)
    (by
      intro i' h1 h2
      have e1 : exTables.innerCells.length = 2 := rfl
      have e2 : exTables.lastFoveaIndex = 1 := rfl
      rw [e1] at h1
      rw [e2] at h2
      omega)
  have hget : (scanFromImage exTables exImage 2 2 [9, 9, 9, 9, 9] 4).get h = exScanResult :=
    Option.get_of_mem h hst
  rw [hget] at main
  exact ⟨hst, main.1⟩

/-- What a successful downward predecessor search returns: the largest
index below `n` whose entry is at most `p`. -/
theorem predIdxAux_eq_some (a : List ℤ) (p : ℤ) :
    ∀ n i, predIdxAux a p n = some i →
      i < n ∧ a.getD i 0 ≤ p ∧ ∀ j, i < j → j < n → p < a.getD j 0 := by
  intro n
  induction n with
  | zero => intro i h; exact absurd h (by simp [predIdxAux])
  | succ n ih =>
    intro i h
    unfold predIdxAux at h
    split_ifs at h with hle
    · cases h
      exact ⟨Nat.lt_succ_self _, hle, fun j hj1 hj2 => by omega⟩
    · obtain ⟨h1, h2, h3⟩ := ih i h
      refine ⟨by omega, h2, fun j hj1 hj2 => ?_⟩
      rcases Nat.lt_or_ge j n with hj | hj
      · exact h3 j hj1 hj
      · have : j = n := by omega
        subst this
        omega


/-- A failed downward predecessor search means every entry below `n`
exceeds `p`. -/
theorem predIdxAux_eq_none (a : List ℤ) (p : ℤ) :
    ∀ n, predIdxAux a p n = none → ∀ j, j < n → p < a.getD j 0 := by
  intro n
  induction n with
  | zero => intro _ j hj; omega
  | succ n ih =>
    intro h j hj
    unfold predIdxAux at h
    split_ifs at h with hle
    · rcases Nat.lt_or_ge j n with hjn | hjn
      · exact ih h j hjn
      · have : j = n := by omega
        subst this
        omega

/-- What a successful downward entry search returns: the largest index
below `n` whose entry equals `q`. -/
theorem entryIdxAux_eq_some (a : List ℤ) (q : ℤ) :
    ∀ n i, entryIdxAux a q n = some i →
      i < n ∧ a.getD i 0 = q ∧ ∀ j, i < j → j < n → a.getD j 0 ≠ q := by
  intro n
  induction n with
  | zero => intro i h; exact absurd h (by simp [entryIdxAux])
  | succ n ih =>
    intro i h
    unfold entryIdxAux at h
    split_ifs at h with heq
    · cases h
      exact ⟨Nat.lt_succ_self _, heq, fun j hj1 hj2 => by omega⟩
    · obtain ⟨h1, h2, h3⟩ := ih i h
      refine ⟨by omega, h2, fun j hj1 hj2 => ?_⟩
      rcases Nat.lt_or_ge j n with hj | hj
      · exact h3 j hj1 hj
      · have : j = n := by omega
        subst this
        exact heq

/-- A failed downward entry search means no entry below `n` equals
`q`. -/
theorem entryIdxAux_eq_none (a : List ℤ) (q : ℤ) :
    ∀ n, entryIdxAux a q n = none → ∀ j, j < n → a.getD j 0 ≠ q := by
  intro n
  induction n with
  | zero => intro _ j hj; omega
  | succ n ih =>
    intro h j hj
    unfold entryIdxAux at h
    split_ifs at h with heq
    · rcases Nat.lt_or_ge j n with hjn | hjn
      · exact ih h j hjn
      · have : j = n := by omega
        subst this
        exact heq

/-- Strict ascent of `outerPixelIndex`, read through `getD`. -/
theorem pairwise_getD_lt (a : List ℤ) (hasc : List.Pairwise (· < ·) a)
    (i j : ℕ) (hij : i < j) (hj : j < a.length) :
    a.getD i 0 < a.getD j 0 := by
  have h := List.pairwise_iff_getElem.mp hasc i j (by omega) hj hij
  rw [List.getD_eq_getElem?_getD, List.getD_eq_getElem?_getD,
    List.getElem?_eq_getElem (by omega : i < a.length),
    List.getElem?_eq_getElem hj]
  exact h

/-- Correctness of the scanner's binary-search loop on a strictly
ascending table: with the standard interval invariants and enough fuel
it returns the ordered-predecessor cell. -/
theorem bsearchAux_eq_predCell (a c : List ℤ) (lf p : ℤ)
    (hasc : List.Pairwise (· < ·) a) :
    ∀ (fuel : ℕ) (low high : ℤ), 0 ≤ low → low ≤ high + 1 → high < (a.length : ℤ) →
      (∀ idx : ℕ, idx < a.length → (idx : ℤ) < low → a.getD idx 0 < p) →
      (∀ idx : ℕ, idx < a.length → high < (idx : ℤ) → p < a.getD idx 0) →
      high - low + 1 < (fuel : ℤ) →
      bsearchAux a c lf p fuel low high =
        (match predIdxAux a p a.length with
         | some i => c.getD i 0
         | none => lf) := by
  intro fuel
  induction fuel with
  | zero => intro low high _ hlh _ _ _ hf; norm_num at hf; omega
  | succ fuel ih =>
    intro low high hlow hlh hhigh inv1 inv2 hf
    by_cases hcmp : low ≤ high
    · have hnum : 0 ≤ low + high := by omega
      have hmid_eq : (low + high).tdiv 2 = (low + high) / 2 := by
        rcases Int.eq_ofNat_of_zero_le hnum with ⟨n, hn⟩
        rw [hn]
        rfl
      have hmid_lb : low ≤ (low + high).tdiv 2 := by omega
      have hmid_ub : (low + high).tdiv 2 ≤ high := by omega
      set mid := (low + high).tdiv 2 with hmid
      have hmid0 : 0 ≤ mid := by omega
      have hmidlen : mid.toNat < a.length := by omega
      have hmidcast : (mid.toNat : ℤ) = mid := Int.toNat_of_nonneg hmid0
      show (if low ≤ high then
          if a.getD mid.toNat 0 < p then bsearchAux a c lf p fuel (mid + 1) high
          else if p < a.getD mid.toNat 0 then bsearchAux a c lf p fuel low (mid - 1)
          else c.getD mid.toNat 0
        else if 0 ≤ high then c.getD high.toNat 0 else lf) = _
      rw [if_pos hcmp]
      by_cases h1 : a.getD mid.toNat 0 < p
      · rw [if_pos h1]
        apply ih (mid + 1) high (by omega) (by omega) hhigh ?_ inv2 (by omega)
        intro idx hidx hlt
        rcases Nat.lt_trichotomy idx mid.toNat with hc | hc | hc
        · exact lt_trans (pairwise_getD_lt a hasc idx mid.toNat hc hmidlen) h1
        · subst hc; exact h1
        · omega
      · rw [if_neg h1]
        by_cases h2 : p < a.getD mid.toNat 0
        · rw [if_pos h2]
          apply ih low (mid - 1) hlow (by omega) (by omega) inv1 ?_ (by omega)
          intro idx hidx hgt
          rcases Nat.lt_trichotomy idx mid.toNat with hc | hc | hc
          · omega
          · subst hc; exact h2
          · exact lt_trans h2 (pairwise_getD_lt a hasc mid.toNat idx hc hidx)
        · rw [if_neg h2]
          have heq : a.getD mid.toNat 0 = p := by omega
          cases hpi : predIdxAux a p a.length with
          | none =>
            have := predIdxAux_eq_none a p a.length hpi mid.toNat hmidlen
            omega
          | some i =>
            obtain ⟨hi1, hi2, hi3⟩ := predIdxAux_eq_some a p a.length i hpi
            have : i = mid.toNat := by
              rcases Nat.lt_trichotomy i mid.toNat with hc | hc | hc
              · have := hi3 mid.toNat hc hmidlen
                omega
              · exact hc
              · have := pairwise_getD_lt a hasc mid.toNat i hc hi1
                omega
            rw [this]
    · show (if low ≤ high then
          if a.getD ((low + high).tdiv 2).toNat 0 < p then
            bsearchAux a c lf p fuel ((low + high).tdiv 2 + 1) high
          else if p < a.getD ((low + high).tdiv 2).toNat 0 then
            bsearchAux a c lf p fuel low ((low + high).tdiv 2 - 1)
          else c.getD ((low + high).tdiv 2).toNat 0
        else if 0 ≤ high then c.getD high.toNat 0 else lf) = _
      rw [if_neg hcmp]
      by_cases hh : 0 ≤ high
      · rw [if_pos hh]
        have hhl : high.toNat < a.length := by omega
        have hhc : (high.toNat : ℤ) = high := Int.toNat_of_nonneg hh
        cases hpi : predIdxAux a p a.length with
        | none =>
          have := predIdxAux_eq_none a p a.length hpi high.toNat hhl
          have := inv1 high.toNat hhl (by omega)
          omega
        | some i =>
          obtain ⟨hi1, hi2, hi3⟩ := predIdxAux_eq_some a p a.length i hpi
          have : i = high.toNat := by
            rcases Nat.lt_trichotomy i high.toNat with hc | hc | hc
            · have hj := hi3 high.toNat hc hhl
              have := inv1 high.toNat hhl (by omega)
              omega
            · exact hc
            · have := inv2 i hi1 (by omega)
              omega
          rw [this]
      · rw [if_neg hh]
        cases hpi : predIdxAux a p a.length with
        | none => rfl
        | some i =>
          obtain ⟨hi1, hi2, _⟩ := predIdxAux_eq_some a p a.length i hpi
          have := inv2 i hi1 (by omega)
          omega

/-- The scanner's lookup equals the ordered-predecessor specification on
a strictly ascending table. -/
theorem findCell_eq_predCellSpec (sct : LPXTables)
    (hasc : List.Pairwise (· < ·) sct.outerPixelIndex) (p : ℤ) :
    findCell sct p = predCellSpec sct p := by
  unfold findCell predCellSpec LPXTables.length
  apply bsearchAux_eq_predCell _ _ _ _ hasc _ 0 _ le_rfl (by omega) (by omega)
    (fun idx _ h => by omega) (fun idx hidx h => by omega) (by push_cast; omega)

/-- Folding pair writes preserves the cache size. -/
theorem foldl_lutWrite_length (sct : LPXTables) (mapSize : ℕ) (l : List ℕ) :
    ∀ lut : List ℤ,
      (l.foldl (lutWriteStep sct mapSize) lut).length = lut.length := by
  induction l with
  | nil => intro lut; rfl
  | cons i rest ih =>
    intro lut
    rw [List.foldl_cons, ih]
    unfold lutWriteStep
    split
    · rw [List.length_set]
    · rfl

/-- The pair-writing pass yields a `mapSize`-entry cache. -/
theorem lutWritePairs_length (sct : LPXTables) (mapSize : ℕ) :
    (lutWritePairs sct mapSize).length = mapSize := by
  unfold lutWritePairs
  rw [foldl_lutWrite_length, List.length_replicate]

/-- After writing the first `n` table pairs, cache slot `q` holds the
`outerPixelCellIdx` entry of the last pair that wrote it, or the `-1`
sentinel. -/
theorem foldl_lutWrite_getD (sct : LPXTables) (mapSize : ℕ) (q : ℕ)
    (hq : q < mapSize) :
    ∀ n : ℕ,
      ((List.range n).foldl (lutWriteStep sct mapSize)
          (List.replicate mapSize (-1))).getD q 0 =
        (match entryIdxAux sct.outerPixelIndex (q : ℤ) n with
         | some i => sct.outerPixelCellIdx.getD i 0
         | none => -1) := by
  intro n
  induction n with
  | zero =>
    simp only [List.range_zero, List.foldl_nil, entryIdxAux]
    exact getD_replicate_lt _ _ _ _ hq
  | succ n ih =>
    rw [List.range_succ, List.foldl_append, List.foldl_cons, List.foldl_nil]
    have hWlen :
        ((List.range n).foldl (lutWriteStep sct mapSize)
          (List.replicate mapSize (-1))).length = mapSize := by
      rw [foldl_lutWrite_length, List.length_replicate]
    rw [lutWriteStep]
    by_cases heq : sct.outerPixelIndex.getD n 0 = (q : ℤ)
    · rw [if_pos (by constructor <;> omega)]
      rw [heq, Int.toNat_natCast]
      rw [getD_set_self _ _ _ _ (by omega)]
      unfold entryIdxAux
      rw [if_pos heq]
    · unfold entryIdxAux
      rw [if_neg heq]
      split
      · next hin =>
        rw [getD_set_ne _ _ _ _ _ (by omega), ih]
      · exact ih

/-- Cache slot `q` after the pair-writing pass. -/
theorem lutWritePairs_getD (sct : LPXTables) (mapSize : ℕ) (q : ℕ)
    (hq : q < mapSize) :
    (lutWritePairs sct mapSize).getD q 0 =
      (match entryIdxAux sct.outerPixelIndex (q : ℤ) sct.outerPixelIndex.length with
       | some i => sct.outerPixelCellIdx.getD i 0
       | none => -1) :=
  foldl_lutWrite_getD sct mapSize q hq sct.outerPixelIndex.length

/-- Unfolding equation of `prevValid` at index 0. -/
theorem prevValid_zero (lut0 : List ℤ) (seed : ℤ) :
    prevValid lut0 seed 0 =
      if lut0.getD 0 0 = -1 then seed else lut0.getD 0 0 := rfl

/-- Unfolding equation of `prevValid` at a successor index. -/
theorem prevValid_succ (lut0 : List ℤ) (seed : ℤ) (p : ℕ) :
    prevValid lut0 seed (p + 1) =
      if lut0.getD (p + 1) 0 = -1 then prevValid lut0 seed p
      else lut0.getD (p + 1) 0 := rfl

/-- The forward fill processed left to right: after the first `n`
indices, every filled slot holds the most recent valid value, later
slots are untouched, and the running `lastValidCell` is the value at
`n - 1`. -/
theorem lutFill_invariant (lut0 : List ℤ) (seed : ℤ) (mapSize : ℕ)
    (hlen : lut0.length = mapSize) :
    ∀ n, n ≤ mapSize →
      ((List.range n).foldl lutFillStep (seed, lut0)).2.length = mapSize ∧
      (∀ q, n ≤ q →
        ((List.range n).foldl lutFillStep (seed, lut0)).2.getD q 0 = lut0.getD q 0) ∧
      (∀ q, q < n →
        ((List.range n).foldl lutFillStep (seed, lut0)).2.getD q 0 = prevValid lut0 seed q) ∧
      ((List.range n).foldl lutFillStep (seed, lut0)).1 =
        fillSeedVal lut0 seed n := by
  intro n
  induction n with
  | zero =>
    intro _
    exact ⟨hlen, fun q _ => rfl, fun q hq => absurd hq (by omega), rfl⟩
  | succ n ih =>
    intro hn
    obtain ⟨ihl, ihhi, ihlo, ihlv⟩ := ih (by omega)
    rw [List.range_succ, List.foldl_append, List.foldl_cons, List.foldl_nil]
    have hread := ihhi n le_rfl
    have hnlen : n < mapSize := by omega
    rw [lutFillStep]
    by_cases hgap : ((List.range n).foldl lutFillStep (seed, lut0)).2.getD n 0 = -1
    · rw [if_pos hgap]
      rw [hread] at hgap
      have hvaln : prevValid lut0 seed n = fillSeedVal lut0 seed n := by
        cases n with
        | zero => rw [prevValid_zero, if_pos hgap]; rfl
        | succ m => rw [prevValid_succ, if_pos hgap]; rfl
      refine ⟨by rw [List.length_set]; exact ihl, ?_, ?_, ?_⟩
      · intro q hq
        rw [getD_set_ne _ _ _ _ _ (by omega)]
        exact ihhi q (by omega)
      · intro q hq
        rcases Nat.lt_or_ge q n with hqn | hqn
        · rw [getD_set_ne _ _ _ _ _ (by omega)]
          exact ihlo q hqn
        · have : q = n := by omega
          subst this
          rw [getD_set_self _ _ _ _ (by omega), ihlv, hvaln]
      · rw [ihlv, ← hvaln]; rfl
    · rw [if_neg hgap]
      rw [hread] at hgap
      have hvaln : prevValid lut0 seed n = lut0.getD n 0 := by
        cases n with
        | zero => rw [prevValid_zero, if_neg hgap]
        | succ m => rw [prevValid_succ, if_neg hgap]
      refine ⟨ihl, ?_, ?_, ?_⟩
      · intro q hq
        exact ihhi q (by omega)
      · intro q hq
        rcases Nat.lt_or_ge q n with hqn | hqn
        · exact ihlo q hqn
        · have : q = n := by omega
          subst this
          rw [hread, hvaln]
      · rw [hread, ← hvaln]; rfl

/-- The scan cache at slot `p` is the most recent valid value of the
pair-written table at an index at most `p`. -/
theorem buildLUT_getD (sct : LPXTables) (p : ℕ)
    (hp : p < (sct.mapWidth * sct.mapWidth).toNat) :
    (buildLUT sct).getD p 0 =
      prevValid (lutWritePairs sct (sct.mapWidth * sct.mapWidth).toNat)
        sct.lastFoveaIndex p := by
  unfold buildLUT
  obtain ⟨_, _, hlo, _⟩ := lutFill_invariant
    (lutWritePairs sct (sct.mapWidth * sct.mapWidth).toNat) sct.lastFoveaIndex
    (sct.mapWidth * sct.mapWidth).toNat (lutWritePairs_length _ _)
    (sct.mapWidth * sct.mapWidth).toNat le_rfl
  exact hlo p hp

/-- When no table entry equals `p`, the ordered-predecessor search at
`p` and at `p − 1` agree. -/
theorem predIdxAux_shift (a : List ℤ) (p : ℤ)
    (hne : ∀ j, j < a.length → a.getD j 0 ≠ p) :
    ∀ n, n ≤ a.length → predIdxAux a p n = predIdxAux a (p - 1) n := by
  intro n
  induction n with
  | zero => intro _; rfl
  | succ n ih =>
    intro hn
    unfold predIdxAux
    have hne_n := hne n (by omega)
    by_cases h1 : a.getD n 0 ≤ p
    · rw [if_pos h1, if_pos (by omega)]
    · rw [if_neg h1, if_neg (by omega), ih (by omega)]

/-- The forward-filled cache value at `p` is the ordered-predecessor
cell, given an ascending nonnegative pixel-index table with nonnegative
cell entries. -/
theorem prevValid_eq_predCellSpec (sct : LPXTables)
    (hasc : List.Pairwise (· < ·) sct.outerPixelIndex)
    (hnn : ∀ i, i < sct.outerPixelIndex.length → 0 ≤ sct.outerPixelIndex.getD i 0)
    (hcell : ∀ i, i < sct.outerPixelIndex.length → 0 ≤ sct.outerPixelCellIdx.getD i 0) :
    ∀ p : ℕ, p < (sct.mapWidth * sct.mapWidth).toNat →
      prevValid (lutWritePairs sct (sct.mapWidth * sct.mapWidth).toNat)
        sct.lastFoveaIndex p = predCellSpec sct (p : ℤ) := by
  intro p
  induction p with
  | zero =>
    intro hp
    rw [prevValid_zero, lutWritePairs_getD sct _ 0 hp]
    cases he : entryIdxAux sct.outerPixelIndex ((0 : ℕ) : ℤ) sct.outerPixelIndex.length with
    | some i =>
      obtain ⟨hi1, hi2, hi3⟩ := entryIdxAux_eq_some _ _ _ i he
      rw [if_neg (by have := hcell i hi1; dsimp only; omega)]
      unfold predCellSpec
      cases hpi : predIdxAux sct.outerPixelIndex ((0 : ℕ) : ℤ) sct.outerPixelIndex.length with
      | none =>
        have := predIdxAux_eq_none _ _ _ hpi i hi1
        omega
      | some i2 =>
        obtain ⟨hj1, hj2, hj3⟩ := predIdxAux_eq_some _ _ _ i2 hpi
        have heq : i2 = i := by
          rcases Nat.lt_trichotomy i2 i with hc | hc | hc
          · have := hj3 i hc hi1
            omega
          · exact hc
          · have := pairwise_getD_lt _ hasc i i2 hc hj1
            omega
        rw [heq]
    | none =>
      rw [if_pos rfl]
      unfold predCellSpec
      cases hpi : predIdxAux sct.outerPixelIndex ((0 : ℕ) : ℤ) sct.outerPixelIndex.length with
      | none => rfl
      | some i2 =>
        obtain ⟨hj1, hj2, _⟩ := predIdxAux_eq_some _ _ _ i2 hpi
        have h0 := hnn i2 hj1
        have := entryIdxAux_eq_none _ _ _ he i2 hj1
        omega
  | succ p ih =>
    intro hp
    rw [prevValid_succ, lutWritePairs_getD sct _ (p + 1) hp]
    cases he : entryIdxAux sct.outerPixelIndex ((p + 1 : ℕ) : ℤ) sct.outerPixelIndex.length with
    | some i =>
      obtain ⟨hi1, hi2, hi3⟩ := entryIdxAux_eq_some _ _ _ i he
      rw [if_neg (by have := hcell i hi1; dsimp only; omega)]
      unfold predCellSpec
      cases hpi : predIdxAux sct.outerPixelIndex ((p + 1 : ℕ) : ℤ) sct.outerPixelIndex.length with
      | none =>
        have := predIdxAux_eq_none _ _ _ hpi i hi1
        omega
      | some i2 =>
        obtain ⟨hj1, hj2, hj3⟩ := predIdxAux_eq_some _ _ _ i2 hpi
        have heq : i2 = i := by
          rcases Nat.lt_trichotomy i2 i with hc | hc | hc
          · have := hj3 i hc hi1
            omega
          · exact hc
          · have := pairwise_getD_lt _ hasc i i2 hc hj1
            omega
        rw [heq]
    | none =>
      rw [if_pos rfl, ih (by omega)]
      unfold predCellSpec
      have hshift := predIdxAux_shift sct.outerPixelIndex ((p + 1 : ℕ) : ℤ)
        (entryIdxAux_eq_none _ _ _ he) sct.outerPixelIndex.length le_rfl
      have hcast : ((p + 1 : ℕ) : ℤ) - 1 = ((p : ℕ) : ℤ) := by push_cast; ring
      rw [hshift, hcast]

/-- C3 (amended): on a scan table whose `outerPixelIndex` is strictly
ascending with nonnegative entries and whose `outerPixelCellIdx`
entries are nonnegative, the scan-cache lookup equals the
binary-search ordered-predecessor lookup at every in-map pixel index. -/
theorem scan_cache_refines_binary_search (sct : LPXTables)
    (hasc : List.Pairwise (· < ·) sct.outerPixelIndex)
    (hnn : ∀ i, i < sct.outerPixelIndex.length → 0 ≤ sct.outerPixelIndex.getD i 0)
    (hcell : ∀ i, i < sct.outerPixelIndex.length → 0 ≤ sct.outerPixelCellIdx.getD i 0)
    (p : ℕ) (hp : p < (sct.mapWidth * sct.mapWidth).toNat) :
    (buildLUT sct).getD p 0 = findCell sct (p : ℤ) := by
  rw [buildLUT_getD sct p hp, prevValid_eq_predCellSpec sct hasc hnn hcell p hp,
    findCell_eq_predCellSpec sct hasc]

/-- C3 counterexample: on `cexTables` — whose `outerPixelIndex` `[-1]`
is strictly ascending — the scan cache and the binary search disagree at
pixel 0: the cache skips the out-of-range entry and falls back to the
`lastFoveaIndex` seed (2), while the binary search returns the
predecessor's cell (5).  Strict ascent alone therefore does not make the
LUT refine the binary search. -/
theorem scan_cache_negative_entry_diverges :
    List.Pairwise (fun x1 x2 => x1 < x2) cexTables.outerPixelIndex ∧
    (0 : ℕ) < (cexTables.mapWidth * cexTables.mapWidth).toNat ∧
    (buildLUT cexTables).getD 0 0 = 2 ∧ findCell cexTables 0 = 5 := by
  refine ⟨?_, ?_, ?_, ?_⟩ <;> decide

/-- Witness for the amended C3 on `exTables` at pixel 9 (mapped to cell
4 by both lookups). -/
theorem scan_cache_refines_binary_search_witness :
    (buildLUT exTables).getD 9 0 = findCell exTables ((9 : ℕ) : ℤ) ∧
    findCell exTables ((9 : ℕ) : ℤ) = 4 := by
  constructor
  · apply scan_cache_refines_binary_search exTables (by decide) ?_ ?_ 9 (by decide)
    · intro i hi
      have hl : exTables.outerPixelIndex.length = 2 := rfl
      rw [hl] at hi
      rcases i with _ | _ | i
      · decide
      · decide
      · omega
    · intro i hi
      have hl : exTables.outerPixelIndex.length = 2 := rfl
      rw [hl] at hi
      rcases i with _ | _ | i
      · decide
      · decide
      · omega
  · decide

/-- The frame-throttle invariant: at most one command has been written
since the last frame, and none while `canSendCommand` is still set. -/
theorem stepEvent_preserves_sync (st : ViewerState) (e : VEvent)
    (h : st.sentSinceFrame ≤ 1 ∧ (st.canSend = true → st.sentSinceFrame = 0)) :
    (stepEvent st e).sentSinceFrame ≤ 1 ∧
    ((stepEvent st e).canSend = true → (stepEvent st e).sentSinceFrame = 0) := by
  obtain ⟨h1, h2⟩ := h
  cases e with
  | key dx dy t =>
    unfold stepEvent
    dsimp only
    split_ifs with hz hacc hcs
    · exact ⟨h1, h2⟩
    · refine ⟨?_, ?_⟩
      · have := h2 hcs
        simp [this]
      · intro hfalse
        simp at hfalse
    · exact ⟨h1, h2⟩
    · exact ⟨h1, h2⟩
  | frame =>
    unfold stepEvent
    dsimp only
    cases hp : st.pending with
    | some c =>
      dsimp only
      refine ⟨le_rfl, ?_⟩
      intro hfalse
      simp at hfalse
    | none =>
      dsimp only
      exact ⟨by omega, fun _ => rfl⟩

/-- C9 (amended): the debug viewer's frame-synchronised movement logic.
(1) Over any event sequence at most one MOVEMENT command is on the wire
per inter-frame interval (sending clears `canSendCommand`, which only a
new frame sets again).  (2) A W/A/S/D press made while sending is
blocked, at least `KEY_THROTTLE_MS` after the last accepted press,
overwrites the single pending command — deltas are never accumulated.
(3) A press within `KEY_THROTTLE_MS` of the last accepted press is
discarded entirely, leaving the state unchanged.  (4) When a frame
arrives with a command pending, exactly that command is sent. -/
theorem viewer_frame_sync_coalescing :
    (∀ evs : List VEvent, (runViewer evs).sentSinceFrame ≤ 1) ∧
    (∀ (st : ViewerState) (dx dy : ℚ) (t : ℤ),
      st.canSend = false → KEY_THROTTLE ≤ t - st.lastKeyTime → ¬(dx = 0 ∧ dy = 0) →
      stepEvent st (.key dx dy t)
        = { st with pending := some ⟨dx, dy, 10⟩, lastKeyTime := t }) ∧
    (∀ (st : ViewerState) (dx dy : ℚ) (t : ℤ),
      t - st.lastKeyTime < KEY_THROTTLE → stepEvent st (.key dx dy t) = st) ∧
    (∀ (st : ViewerState) (c : Cmd), st.pending = some c →
      stepEvent st .frame
        = { st with canSend := false, pending := none,
                    sent := st.sent ++ [c], sentSinceFrame := 1 }) := by
  refine ⟨?_, ?_, ?_, ?_⟩
  · intro evs
    have main : ∀ (evs : List VEvent) (st : ViewerState),
        st.sentSinceFrame ≤ 1 ∧ (st.canSend = true → st.sentSinceFrame = 0) →
        (evs.foldl stepEvent st).sentSinceFrame ≤ 1 ∧
        ((evs.foldl stepEvent st).canSend = true →
          (evs.foldl stepEvent st).sentSinceFrame = 0) := by
      intro evs
      induction evs with
      | nil => intro st h; exact h
      | cons e rest ih =>
        intro st h
        rw [List.foldl_cons]
        exact ih _ (stepEvent_preserves_sync st e h)
    exact (main evs initViewer ⟨by decide, fun _ => rfl⟩).1
  · intro st dx dy t hb hacc hnz
    unfold stepEvent
    dsimp only
    rw [if_neg hnz, if_pos hacc]
    rw [hb]
    rfl
  · intro st dx dy t hlt
    unfold stepEvent
    dsimp only
    by_cases hz : dx = 0 ∧ dy = 0
    · rw [if_pos hz]
    · rw [if_neg hz, if_neg (by omega)]
  · intro st c hp
    unfold stepEvent
    dsimp only
    rw [hp]

/-- C9 counterexample: with `canSendCommand` already cleared by a first
key press, a press made 6 ms after the last accepted one is discarded —
not coalesced — so the command sent after the next frame is the earlier
accepted press `(0, 1)`, not the latest press `(1, 0)`. -/
theorem viewer_throttled_press_dropped :
    (runViewer [.key 1 0 0, .key 0 1 20, .key 1 0 26, .frame]).sent
      = [⟨1, 0, 10⟩, ⟨0, 1, 10⟩] ∧
    (runViewer [.key 1 0 0, .key 0 1 20, .key 1 0 26, .frame]).sent.getLast?
      = some ⟨0, 1, 10⟩ ∧
    (⟨0, 1, 10⟩ : Cmd) ≠ ⟨1, 0, 10⟩ := by
  refine ⟨?_, ?_, ?_⟩ <;> decide

/-- Witness for the amended C9 at concrete states: an accepted press
while blocked overwrites the pending slot, a press 6 ms later is
dropped, and the frame sends the pending command. -/
theorem viewer_frame_sync_coalescing_witness :
    stepEvent ⟨false, some ⟨1, 0, 10⟩, 0, [⟨1, 0, 10⟩], 1⟩ (.key 0 1 20)
      = ⟨false, some ⟨0, 1, 10⟩, 20, [⟨1, 0, 10⟩], 1⟩ ∧
    stepEvent ⟨false, some ⟨0, 1, 10⟩, 20, [⟨1, 0, 10⟩], 1⟩ (.key 1 0 26)
      = ⟨false, some ⟨0, 1, 10⟩, 20, [⟨1, 0, 10⟩], 1⟩ ∧
    stepEvent ⟨false, some ⟨0, 1, 10⟩, 20, [⟨1, 0, 10⟩], 1⟩ .frame
      = ⟨false, none, 20, [⟨1, 0, 10⟩, ⟨0, 1, 10⟩], 1⟩ :=
  ⟨viewer_frame_sync_coalescing.2.1 ⟨false, some ⟨1, 0, 10⟩, 0, [⟨1, 0, 10⟩], 1⟩
      0 1 20 rfl (by decide) (by decide),
   viewer_frame_sync_coalescing.2.2.1 ⟨false, some ⟨0, 1, 10⟩, 20, [⟨1, 0, 10⟩], 1⟩
      1 0 26 (by decide),
   viewer_frame_sync_coalescing.2.2.2 ⟨false, some ⟨0, 1, 10⟩, 20, [⟨1, 0, 10⟩], 1⟩
      ⟨0, 1, 10⟩ rfl⟩

end LPX
